import Mathlib

/-!
# DocumentGenerator (100pa2.cpp): tokenizer and bigram model

A shallow embedding of the class `DocumentGenerator` of `src/100pa2.cpp`.

Modelling conventions
* A C++ `string` is a Lean `String`; the loop `for (unsigned char c : line)` walks the
  character list `line.data`.  Every member of the three character sets is ASCII, so
  membership tests on characters agree with the byte-wise tests of the source.
* `s.find(c) != string::npos` for a character `c` is list membership `c ∈ s.data`.
* `unordered_map<K, V>` is an association list with pairwise distinct keys, in insertion
  order; `m.count(k) == 0` is `lookup? m k = none`.
* The `int` values of the source (the stored counts, the loop indices, `total`, `tmp`,
  `randNum`) are `Nat`.  The two agree below `2^31`: every general statement about them
  assumes a corpus of fewer than `2^31` tokens or an entry total below `2^31` (`hint`), under
  which no index, count, total or running sum reaches `2^31` (`buildTable_bounded`).  The
  one place where unsigned wrap-around decides the control flow, the loop bound
  `words->size()-1`, is computed modulo `2^64`.
* An access outside a vector and a division by zero are faults: the functions that can
  reach one return `Option`, and `none` is the fault.
* The directory is given by its files and a file by its lines; a token vector has fewer
  than `2^64` elements (`hsize` in the lemmas about the counting loop).
* The random source is a parameter: `generateNextWord` takes the value that its call of
  `rand()` returns, and `generateDocument` takes the sequence `rnd` of these values, one for
  each iteration of its loop.
* `s.find(t) != string::npos` for a string `t` is `found s t`: `t` occurs in `s` as a block
  of consecutive characters.
-/

namespace Pa2

/-! ## Character sets (source lines 209-211) -/

/-- The constant `PUNCTUATION = ".!,?"`. -/
def PUNCTUATION : String := ".!,?"

/-- The constant `UNWANTED_CHARACTERS`; the last character is the backquote. -/
def UNWANTED_CHARACTERS : String := ";:\"~()[]\x7b\x7d\\/^_<>*=&%@$+|\x60"

/-- The constant `whitespace = " \t\r\n\v\f"`. -/
def whitespace : String := " \t\r\n\x0b\x0c"

/-! ## tokenize (source lines 25-48) -/

/-- The body of the `for` loop of `tokenize`, as a recursion over the remaining characters.
`words` is the vector of finished tokens and `word` the characters of the token in
progress.  The test for `PUNCTUATION` sits, as in the source, inside the branch taken
for whitespace characters. -/
def tokenizeLoop : List Char → List String → List Char → List String × List Char
  | [], words, word => (words, word)
  | c :: cs, words, word =>
    if c ∈ UNWANTED_CHARACTERS.data then
      tokenizeLoop cs words word
    else if c ∉ whitespace.data then
      tokenizeLoop cs words (word ++ [c])
    else
      let words1 := if word.length > 0 then words ++ [String.mk word] else words
      let word1 := if word.length > 0 then [] else word
      let words2 := if c ∈ PUNCTUATION.data then words1 ++ [String.singleton c] else words1
      tokenizeLoop cs words2 word1

/-- The function `tokenize`: run the loop, then flush the token in progress. -/
def tokenize (line : String) : List String :=
  let r := tokenizeLoop line.data [] []
  if r.2.length > 0 then r.1 ++ [String.mk r.2] else r.1

/-! ## getWords (source lines 54-73) -/

/-- The function `getWords` on a file that opens, given as the list of its lines (what the
successive `getline` calls return): every line is tokenized and the tokens are appended
to `words` in order. -/
def getWords (fileLines : List String) : List String :=
  fileLines.foldl (fun words line => words ++ tokenize line) []

/-! ## The table `dg` and the constructor (source lines 22, 107-126) -/

/-- The inner map `unordered_map<string, int>`: successor token and count. -/
abbrev Freq := List (String × Nat)

/-- The member `dg`: for each token the map of its successors. -/
abbrev Table := List (String × Freq)

/-- Map lookup; `m.count(k) == 0` is `lookup? m k = none`. -/
def lookup? {β : Type} : List (String × β) → String → Option β
  | [], _ => none
  | (k, v) :: m, a => if k = a then some v else lookup? m a

/-- The statement `(*m)[w]++` on an inner map: `operator[]` inserts `w` with the
value-initialised count `0` when it is absent, and the count is then incremented.  The count
is an `int` in the source and a `Nat` here; the two agree while it stays below `2^31`. -/
def increment : Freq → String → Freq
  | [], w => [(w, 0 + 1)]
  | (k, n) :: m, w => if k = w then (k, n + 1) :: m else (k, n) :: increment m w

/-- Apply `f` to the inner map stored under `a`. -/
def modifyEntry : Table → String → (Freq → Freq) → Table
  | [], _, _ => []
  | (k, m) :: dg, a, f => if k = a then (k, f m) :: dg else (k, m) :: modifyEntry dg a f

/-- One iteration of the counting loop (source lines 118-121) for `words[i] = a` and
`words[i+1] = b`: create the entry of `a` when `dg.count(a) == 0`, then increment the
count of `b` in it. -/
def recordTransition (dg : Table) (a b : String) : Table :=
  let dg1 := if lookup? dg a = none then dg ++ [(a, [])] else dg
  modifyEntry dg1 a (fun m => increment m b)

/-- The loop `for (int i = 0; i < words->size()-1; ++i)` from index `i` on, where the first
argument is the number of iterations left, `bound - i`.  Reading `words[i]` or `words[i+1]`
outside the vector is a fault.  The index is an `int` in the source and a `Nat` here; the
two agree for token vectors of fewer than `2^31` elements. -/
def countLoop (words : List String) : Nat → Nat → Table → Option Table
  | 0, _, dg => some dg
  | k + 1, i, dg =>
    match words[i]?, words[i + 1]? with
    | some a, some b => countLoop words k (i + 1) (recordTransition dg a b)
    | _, _ => none

/-- The bound `words->size()-1` of the counting loop, computed as the source does in
the unsigned 64-bit type `size_t`. -/
def loopBound (words : List String) : Nat :=
  (words.length + 2 ^ 64 - 1) % 2 ^ 64

/-- The counting loop over the token vector of one file. -/
def addDocument (dg : Table) (words : List String) : Option Table :=
  countLoop words (loopBound words) 0 dg

/-- The loop of the constructor over the files of the directory, each given by its
token vector (the result of `getWords`), starting from the empty table. -/
def buildTable (docs : List (List String)) : Option Table :=
  docs.foldlM addDocument []

/-- The constructor: every file, given as the list of its lines, is read with `getWords`
and its transitions are counted. -/
def DocumentGenerator (files : List (List String)) : Option Table :=
  buildTable (files.map getWords)

/-! ## generateNextWord (source lines 141-165) -/

/-- The selection loop (source lines 157-163) over the parallel vectors `nextWords` and
`freqs`; `tmp` is the running sum and `nextWord` the value returned when no candidate
is selected.  The running sum is an `int` in the source and a `Nat` here; the two agree
while the sum of `freqs` is below `2^31`. -/
def selectLoop : List String → List Nat → Nat → Nat → String → String
  | w :: ws, f :: fs, randNum, tmp, nextWord =>
    if randNum < tmp + f then w else selectLoop ws fs randNum (tmp + f) nextWord
  | _, _, _, _, nextWord => nextWord

/-- The function `generateNextWord`; `rnd` is the value that the call `rand()` returns.
`rand() % total` with `total = 0` is a fault.  The total is an `int` in the source and a
`Nat` here; the two agree while the counts of the entry sum to less than `2^31`. -/
def generateNextWord (dg : Table) (prevWord : String) (rnd : Nat) : Option String :=
  match lookup? dg prevWord with
  | none => some "."
  | some tmpMap =>
    let nextWords := tmpMap.map Prod.fst
    let freqs := tmpMap.map Prod.snd
    let total := freqs.sum
    if total = 0 then none
    else some (selectLoop nextWords freqs (rnd % total) 0 ".")

/-! ## The documented tokenization pipeline (doc comment, source lines 80-89) -/

/-- First documented step: remove all `UNWANTED_CHARACTERS` from the text. -/
def removeUnwanted (text : List Char) : List Char :=
  text.filter (fun c => decide (c ∉ UNWANTED_CHARACTERS.data))

/-- Documented treatment of punctuation: every `PUNCTUATION` character is treated as if
it was surrounded on both sides by a space. -/
def surroundPunctuation : List Char → List Char
  | [] => []
  | c :: cs =>
    if c ∈ PUNCTUATION.data then ' ' :: c :: ' ' :: surroundPunctuation cs
    else c :: surroundPunctuation cs

/-- Documented split: break the text at every whitespace character, throw the
whitespace away and keep no empty token. -/
def splitOnWhitespace (text : List Char) : List String :=
  ((text.splitOnP (fun c => decide (c ∈ whitespace.data))).filter
    (fun piece => decide (piece ≠ []))).map String.mk

/-- The reference tokenizer that follows the words of the documentation: remove the unwanted
characters, surround punctuation with spaces, split on whitespace. -/
def tokenizeSpec (text : String) : List String :=
  splitOnWhitespace (surroundPunctuation (removeUnwanted text.data))

/-- The sentence of the constructor's doc comment (source line 92). -/
def documentedSentence : String :=
  "I like the man\x27s $10,000 trains. Sally jumped $ ov^er the moon, I think? I. I think."

/-- The tokens that the doc comment gives for `documentedSentence` (source lines 93-94). -/
def documentedTokens : List String :=
  ["I", "like", "the", "man\x27s", "10", ",", "000", "trains", ".", "Sally", "jumped", "over",
   "the", "moon", ",", "I", "think", "?", "I", ".", "I", "think", "."]

/-! ## Reading the table -/

/-- The stored count of the transition from `a` to `b`, when the table has one. -/
def entry? (dg : Table) (a b : String) : Option Nat :=
  (lookup? dg a).bind (fun m => lookup? m b)

/-- The count of the transition from `a` to `b`, `0` when the table does not have it. -/
def count (dg : Table) (a b : String) : Nat :=
  (entry? dg a b).getD 0

/-- The adjacent pairs `(words[i], words[i+1])` of a token vector, in order. -/
def adjacentPairs : List String → List (String × String)
  | a :: b :: rest => (a, b) :: adjacentPairs (b :: rest)
  | _ => []

/-- The sum of the counts stored under the predecessors selected by `p`. -/
def countsUnder (p : String → Bool) (dg : Table) : Nat :=
  ((dg.filter (fun e => p e.1)).map (fun e => (e.2.map Prod.snd).sum)).sum

/-- The sum of all the counts stored in the table. -/
def totalCount (dg : Table) : Nat :=
  countsUnder (fun _ => true) dg

/-- All the iterations of the counting loop for a list of adjacent pairs. -/
def recordAll (dg : Table) (pairs : List (String × String)) : Table :=
  pairs.foldl (fun t q => recordTransition t q.1 q.2) dg

/-- Every stored inner map is non-empty and every stored count is at least 1. -/
def Stored (dg : Table) : Prop :=
  ∀ e ∈ dg, e.2 ≠ [] ∧ ∀ q ∈ e.2, 1 ≤ q.2

/-! ## generateDocument (source lines 186-200) -/

/-- The test `hay.find(needle) != string::npos` for a string `needle`: `needle` occurs in
`hay` as a block of consecutive characters (the empty string occurs at position 0). -/
def found (hay needle : String) : Bool :=
  hay.data.tails.any (fun t => needle.data.isPrefixOf t)

/-- The body of the `while` loop after the call of `generateNextWord` (source lines
192-195): a space is appended when `PUNCTUATION.find(next) == string::npos`, then `next`. -/
def appendWord (document next : String) : String :=
  let document1 := if found PUNCTUATION next = false then document ++ " " else document
  document1 ++ next

/-- The loop `while (i < numWords)`, where the first argument is the number of iterations
left, `numWords - i`; `rnd i` is the value that `rand()` returns in the call of
`generateNextWord` of iteration `i`. -/
def generateLoop (dg : Table) (rnd : Nat → Nat) : Nat → Nat → String → String → Option String
  | 0, _, _, document => some document
  | k + 1, i, prevWord, document =>
    match generateNextWord dg prevWord (rnd i) with
    | none => none
    | some next => generateLoop dg rnd k (i + 1) next (appendWord document next)

/-- The function `generateDocument`; a negative `numWords` admits no iteration. -/
def generateDocument (dg : Table) (numWords : Int) (rnd : Nat → Nat) : Option String :=
  generateLoop dg rnd numWords.toNat 0 "." ""

/-! ## Notions used in the statements -/

/-- The string that the spacing rule of `generateDocument` builds from a token sequence:
the tokens are appended in order with `appendWord`, starting from the empty document. -/
def joinTokens (ts : List String) : String :=
  ts.foldl appendWord ""

/-- The lines of a file joined by newline characters. -/
def joinLines : List String → String
  | [] => ""
  | [line] => line
  | line :: rest => line ++ "\n" ++ joinLines rest

/-- The number of positions `i` of a token vector with `words[i] = a` and
`words[i+1] = b`. -/
def pairPositions (words : List String) (a b : String) : Nat :=
  ((List.range words.length).filter
    (fun i => decide (words[i]? = some a ∧ words[i + 1]? = some b))).length

/-- Whitespace characters other than the space are absent from the string. -/
def OnlySpaces (s : String) : Prop :=
  ∀ c ∈ s.data, c ∈ whitespace.data → c = ' '

/-- The text that the loop body of `generateDocument` puts in front of `next`. -/
def separator (next : String) : String :=
  if found PUNCTUATION next = false then " " else ""

/-! ## Tokenizer: loop invariants -/

/-- Tokens are non-empty and made of characters satisfying `Q`; the word in progress is made
of characters satisfying `Q`. -/
def TokInv (Q : Char → Prop) (words : List String) (word : List Char) : Prop :=
  (∀ t ∈ words, t ≠ "" ∧ ∀ c ∈ t.data, Q c) ∧ ∀ c ∈ word, Q c

theorem mk_ne_empty {word : List Char} (h : word.length > 0) : String.mk word ≠ "" := by
  intro hc
  have h2 : word = [] := by
    have := congrArg String.data hc
    simpa using this
  subst h2
  simp at h

theorem punctuation_not_whitespace : ∀ c ∈ PUNCTUATION.data, c ∉ whitespace.data := by
  decide

theorem TokInv.push {Q : Char → Prop} {words : List String} {word : List Char} {t : String}
    (h : TokInv Q words word) (ht : t ≠ "" ∧ ∀ c ∈ t.data, Q c) :
    TokInv Q (words ++ [t]) word := by
  refine ⟨?_, h.2⟩
  intro u hu
  rcases List.mem_append.1 hu with hu | hu
  · exact h.1 u hu
  · rw [List.mem_singleton.1 hu]; exact ht

theorem TokInv.flush {Q : Char → Prop} {words : List String} {word : List Char}
    (h : TokInv Q words word) :
    TokInv Q (if word.length > 0 then words ++ [String.mk word] else words)
      (if word.length > 0 then [] else word) := by
  by_cases hw : word.length > 0
  · simp only [hw, if_true]
    have h0 : TokInv Q words [] := ⟨h.1, by simp⟩
    exact h0.push ⟨mk_ne_empty hw, h.2⟩
  · simp only [hw, if_false]; exact h

/-- The loop keeps `TokInv Q`, for every `Q` that holds of each character the loop can
store: one that is not unwanted and is either not whitespace or punctuation. -/
theorem tokenizeLoop_inv (Q : Char → Prop)
    (hQ : ∀ c, c ∉ UNWANTED_CHARACTERS.data → (c ∉ whitespace.data ∨ c ∈ PUNCTUATION.data) → Q c)
    (cs : List Char) : ∀ (words : List String) (word : List Char), TokInv Q words word →
      TokInv Q (tokenizeLoop cs words word).1 (tokenizeLoop cs words word).2 := by
  induction cs with
  | nil => intro words word h; simpa [tokenizeLoop] using h
  | cons c cs ih =>
    intro words word h
    unfold tokenizeLoop
    by_cases hu : c ∈ UNWANTED_CHARACTERS.data
    · simp only [hu, if_true]; exact ih _ _ h
    · simp only [hu, if_false]
      by_cases hw : c ∉ whitespace.data
      · simp only [hw, not_false_eq_true, if_true]
        apply ih
        refine ⟨h.1, ?_⟩
        intro d hd
        rcases List.mem_append.1 hd with hd | hd
        · exact h.2 d hd
        · rw [List.mem_singleton.1 hd]; exact hQ c hu (Or.inl hw)
      · simp only [hw, if_false]
        apply ih
        by_cases hp : c ∈ PUNCTUATION.data
        · simp only [hp, if_true]
          refine TokInv.push h.flush ⟨?_, ?_⟩
          · intro hc
            have := congrArg String.length hc
            simp [String.singleton] at this
          · intro d hd
            have hd2 : d = c := by simpa [String.singleton] using hd
            rw [hd2]; exact hQ c hu (Or.inr hp)
        · simp only [hp, if_false]; exact h.flush

theorem tokenize_inv (Q : Char → Prop)
    (hQ : ∀ c, c ∉ UNWANTED_CHARACTERS.data → (c ∉ whitespace.data ∨ c ∈ PUNCTUATION.data) → Q c)
    (line : String) : ∀ t ∈ tokenize line, t ≠ "" ∧ ∀ c ∈ t.data, Q c := by
  have h := tokenizeLoop_inv Q hQ line.data [] [] ⟨by simp, by simp⟩
  have h2 := h.flush
  unfold tokenize
  by_cases hw : (tokenizeLoop line.data [] []).2.length > 0
  · simp only [hw, if_true] at h2 ⊢; exact h2.1
  · simp only [hw, if_false] at h2 ⊢; exact h2.1

/-- Unwanted characters are invisible to the loop. -/
theorem tokenizeLoop_removeUnwanted (cs : List Char) : ∀ (words : List String) (word : List Char),
    tokenizeLoop (removeUnwanted cs) words word = tokenizeLoop cs words word := by
  induction cs with
  | nil => intro words word; rfl
  | cons c cs ih =>
    intro words word
    by_cases hu : c ∈ UNWANTED_CHARACTERS.data
    · have h1 : removeUnwanted (c :: cs) = removeUnwanted cs := by
        simp [removeUnwanted, hu]
      rw [h1, ih]
      conv => rhs; unfold tokenizeLoop
      simp only [hu, if_true]
    · have h1 : removeUnwanted (c :: cs) = c :: removeUnwanted cs := by
        simp [removeUnwanted, hu]
      rw [h1]
      unfold tokenizeLoop
      simp only [hu, if_false, ih]

/-! ## Tokenizer: what the loop computes -/

theorem splitOnWhitespace_of_no_whitespace (word : List Char)
    (hw : ∀ c ∈ word, c ∉ whitespace.data) :
    splitOnWhitespace word = if word.length > 0 then [String.mk word] else [] := by
  unfold splitOnWhitespace
  rw [List.splitOnP_eq_single (fun c => decide (c ∈ whitespace.data)) word (by simpa using hw)]
  cases word <;> simp [List.filter]

theorem splitOnWhitespace_first (word : List Char) (hw : ∀ c ∈ word, c ∉ whitespace.data)
    (sep : Char) (hsep : sep ∈ whitespace.data) (rest : List Char) :
    splitOnWhitespace (word ++ sep :: rest) =
      (if word.length > 0 then [String.mk word] else []) ++ splitOnWhitespace rest := by
  unfold splitOnWhitespace
  rw [List.splitOnP_first (fun c => decide (c ∈ whitespace.data)) word (by simpa using hw) sep
    (by simpa using hsep)]
  cases word <;> simp [List.filter]

/-- The loop followed by the final flush splits the text, unwanted characters removed, at the
whitespace characters; punctuation characters are stored like any other character. -/
theorem tokenizeLoop_eq (cs : List Char) : ∀ (words : List String) (word : List Char),
    (∀ c ∈ word, c ∉ whitespace.data) →
    (if (tokenizeLoop cs words word).2.length > 0
      then (tokenizeLoop cs words word).1 ++ [String.mk (tokenizeLoop cs words word).2]
      else (tokenizeLoop cs words word).1) =
    words ++ splitOnWhitespace (word ++ removeUnwanted cs) := by
  induction cs with
  | nil =>
    intro words word hw
    have e : removeUnwanted [] = [] := rfl
    rw [e, List.append_nil, splitOnWhitespace_of_no_whitespace word hw]
    by_cases h : word.length > 0 <;> simp [tokenizeLoop, h]
  | cons c cs ih =>
    intro words word hw
    by_cases hu : c ∈ UNWANTED_CHARACTERS.data
    · have h1 : removeUnwanted (c :: cs) = removeUnwanted cs := by
        simp [removeUnwanted, hu]
      rw [h1, ← ih words word hw]
      simp only [tokenizeLoop, hu, if_true]
    · have h1 : removeUnwanted (c :: cs) = c :: removeUnwanted cs := by
        simp [removeUnwanted, hu]
      rw [h1]
      by_cases hc : c ∉ whitespace.data
      · have hw2 : ∀ d ∈ word ++ [c], d ∉ whitespace.data := by
          intro d hd
          rcases List.mem_append.1 hd with hd | hd
          · exact hw d hd
          · rw [List.mem_singleton.1 hd]; exact hc
        have h2 := ih words (word ++ [c]) hw2
        rw [List.append_assoc, List.singleton_append] at h2
        rw [← h2]
        simp only [tokenizeLoop, hu, hc, if_false, not_false_eq_true, if_true]
      · have hc2 : c ∈ whitespace.data := not_not.1 hc
        have hp : c ∉ PUNCTUATION.data := fun hp => punctuation_not_whitespace c hp hc2
        rw [splitOnWhitespace_first word hw c hc2, ← List.append_assoc]
        have h2 := ih (words ++ (if word.length > 0 then [String.mk word] else [])) []
          (by simp)
        rw [List.nil_append] at h2
        rw [← h2]
        cases word with
        | nil => simp [tokenizeLoop, hu, hc2, hp]
        | cons w ws => simp [tokenizeLoop, hu, hc2, hp]

/-- For every text, `tokenize` returns the pieces between whitespace characters of the text
with the unwanted characters removed; no step isolates punctuation. -/
theorem tokenize_eq_splitOnWhitespace (line : String) :
    tokenize line = splitOnWhitespace (removeUnwanted line.data) := by
  have h := tokenizeLoop_eq line.data [] [] (by simp)
  simpa [tokenize] using h

/-! ## Tokenizer: the claims -/

/-- C1 (the code departs from the documented pipeline): on the text `10,000` the function
`tokenize` returns the single token `10,000`, while the documented pipeline (remove unwanted
characters, surround punctuation with spaces, split on whitespace) yields `10`, `,`, `000`. -/
theorem tokenize_departs_from_documented_pipeline :
    tokenize "10,000" = ["10,000"] ∧ tokenizeSpec "10,000" = ["10", ",", "000"] ∧
      tokenize "10,000" ≠ tokenizeSpec "10,000" := by
  decide

set_option maxRecDepth 100000 in
/-- C2 (punctuation is not isolated by the code): on the documented sentence `tokenize`
returns 16 tokens, six of which contain a punctuation character and are longer than one
character, and none of which is a single punctuation character, although the sentence holds
six punctuation characters; the result is not the documented list of 23 tokens. -/
theorem tokenize_documentedSentence :
    tokenize documentedSentence =
      ["I", "like", "the", "man\x27s", "10,000", "trains.", "Sally", "jumped", "over", "the",
       "moon,", "I", "think?", "I.", "I", "think."] ∧
    tokenize documentedSentence ≠ documentedTokens ∧
    ((tokenize documentedSentence).filter
      (fun t => decide (t.length = 1 ∧ ∃ c ∈ t.data, c ∈ PUNCTUATION.data))).length = 0 ∧
    (documentedSentence.data.filter (fun c => decide (c ∈ PUNCTUATION.data))).length = 6 := by
  decide

/-- C3 (unwanted-character erasure): no token of `tokenize s` contains a character of
`UNWANTED_CHARACTERS`, and `tokenize s` equals `tokenize` of `s` with every unwanted
character deleted; for instance `ov^er` gives the single token `over`. -/
theorem tokenize_erases_unwanted (s : String) :
    (∀ t ∈ tokenize s, ∀ c ∈ t.data, c ∉ UNWANTED_CHARACTERS.data) ∧
    tokenize s = tokenize (String.mk (removeUnwanted s.data)) ∧
    tokenize "ov^er" = ["over"] := by
  refine ⟨?_, ?_, by decide⟩
  · intro t ht
    exact (tokenize_inv (fun c => c ∉ UNWANTED_CHARACTERS.data) (fun c hu _ => hu) s t ht).2
  · unfold tokenize
    simp only [tokenizeLoop_removeUnwanted]

/-- Instance of C3 at a text with three unwanted characters. -/
theorem tokenize_erases_unwanted_witness :
    (∀ t ∈ tokenize "a$b (c)", ∀ c ∈ t.data, c ∉ UNWANTED_CHARACTERS.data) ∧
    tokenize "a$b (c)" = tokenize (String.mk (removeUnwanted "a$b (c)".data)) ∧
    tokenize "ov^er" = ["over"] :=
  tokenize_erases_unwanted "a$b (c)"

/-- C4 (tokens are non-empty and free of whitespace): `tokenize` is a total function, and
for every text each token it returns is non-empty and contains none of the characters space,
tab, CR, LF, VT, FF; the empty text and an all-whitespace text give no token, and a run of
whitespace gives no empty token. -/
theorem tokenize_tokens_nonempty_no_whitespace (s : String) :
    (∃ ts, tokenize s = ts ∧
      ∀ t ∈ ts, t ≠ "" ∧ 0 < t.length ∧ ∀ c ∈ t.data, c ∉ whitespace.data) ∧
    tokenize "" = [] ∧ tokenize " \t\r\n\x0b\x0c " = [] ∧
    tokenize "a \t\n  b" = ["a", "b"] := by
  refine ⟨⟨tokenize s, rfl, ?_⟩, by decide, by decide, by decide⟩
  intro t ht
  have h := tokenize_inv (fun c => c ∉ whitespace.data)
    (fun c _ h => h.elim id (punctuation_not_whitespace c)) s t ht
  refine ⟨h.1, ?_, h.2⟩
  rcases t with ⟨l⟩
  cases l with
  | nil => exact absurd rfl h.1
  | cons a l => simp [String.length]

/-- Instance of C4 at a text with runs of whitespace. -/
theorem tokenize_tokens_nonempty_no_whitespace_witness :
    (∃ ts, tokenize "  x \t\t y. " = ts ∧
      ∀ t ∈ ts, t ≠ "" ∧ 0 < t.length ∧ ∀ c ∈ t.data, c ∉ whitespace.data) ∧
    tokenize "" = [] ∧ tokenize " \t\r\n\x0b\x0c " = [] ∧
    tokenize "a \t\n  b" = ["a", "b"] :=
  tokenize_tokens_nonempty_no_whitespace "  x \t\t y. "

set_option maxRecDepth 100000 in
/-- C5 (the entry of `I` for the documented sentence): the table that the constructor builds
from the single document `documentedSentence` stores under `I` the successors `like`,
`think?` and `think.`, each with count 1; it has neither `think` with count 2 nor `.`. -/
theorem documentedSentence_entry_I :
    (DocumentGenerator [[documentedSentence]]).map (fun dg => lookup? dg "I") =
      some (some [("like", 1), ("think?", 1), ("think.", 1)]) ∧
    (DocumentGenerator [[documentedSentence]]).map (fun dg => entry? dg "I" "think") =
      some none ∧
    (DocumentGenerator [[documentedSentence]]).map (fun dg => entry? dg "I" ".") =
      some none := by
  decide

/-! ## The table: one recorded transition -/

theorem recordTransition_nil (a b : String) : recordTransition [] a b = [(a, [(b, 1)])] := by
  simp [recordTransition, lookup?, modifyEntry, increment]

theorem recordTransition_cons (k : String) (m : Freq) (dg : Table) (a b : String) :
    recordTransition ((k, m) :: dg) a b =
      if k = a then (k, increment m b) :: dg else (k, m) :: recordTransition dg a b := by
  by_cases hk : k = a
  · simp [recordTransition, lookup?, modifyEntry, hk]
  · by_cases hl : lookup? dg a = none <;>
      simp [recordTransition, lookup?, modifyEntry, hk, hl]

theorem lookup?_increment (m : Freq) (b y : String) :
    lookup? (increment m b) y =
      if y = b then some ((lookup? m b).getD 0 + 1) else lookup? m y := by
  induction m with
  | nil =>
    by_cases h : y = b
    · simp [increment, lookup?, h]
    · have h2 : ¬ b = y := fun e => h e.symm
      simp [increment, lookup?, h, h2]
  | cons e m ih =>
    obtain ⟨k, n⟩ := e
    by_cases hk : k = b
    · subst hk
      by_cases h : y = k
      · simp [increment, lookup?, h]
      · have h2 : ¬ k = y := fun e => h e.symm
        simp [increment, lookup?, h, h2]
    · by_cases h : y = b
      · subst h
        simp [increment, lookup?, hk, ih]
      · by_cases hy : k = y
        · simp [increment, lookup?, hk, h, hy]
        · simp [increment, lookup?, hk, h, hy, ih]

theorem lookup?_recordTransition (dg : Table) (a b x : String) :
    lookup? (recordTransition dg a b) x =
      if x = a then some (increment ((lookup? dg a).getD []) b) else lookup? dg x := by
  induction dg with
  | nil =>
    by_cases h : x = a
    · simp [recordTransition_nil, lookup?, h, increment]
    · have h2 : ¬ a = x := fun e => h e.symm
      simp [recordTransition_nil, lookup?, h, h2]
  | cons e dg ih =>
    obtain ⟨k, m⟩ := e
    rw [recordTransition_cons]
    by_cases hk : k = a
    · subst hk
      by_cases h : x = k
      · simp [lookup?, h]
      · have h2 : ¬ k = x := fun e => h e.symm
        simp [lookup?, h, h2]
    · by_cases h : x = a
      · subst h
        simp [lookup?, hk, ih]
      · by_cases hy : k = x
        · simp [lookup?, hk, h, hy]
        · simp [lookup?, hk, h, hy, ih]

theorem entry?_recordTransition (dg : Table) (a b x y : String) :
    entry? (recordTransition dg a b) x y =
      if x = a ∧ y = b then some (count dg a b + 1) else entry? dg x y := by
  unfold count entry?
  rw [lookup?_recordTransition]
  by_cases hx : x = a
  · subst hx
    by_cases hy : y = b
    · subst hy
      cases hl : lookup? dg x <;> simp [lookup?_increment, lookup?]
    · have hy2 : ¬ b = y := fun e => hy e.symm
      cases hl : lookup? dg x <;> simp [lookup?_increment, lookup?, hy, hy2]
  · simp [hx]

theorem isSome_lookup?_recordTransition (dg : Table) (a b x : String) :
    (lookup? (recordTransition dg a b) x).isSome = ((lookup? dg x).isSome || decide (x = a)) := by
  rw [lookup?_recordTransition]
  by_cases hx : x = a <;> simp [hx]

theorem sum_increment (m : Freq) (b : String) :
    ((increment m b).map Prod.snd).sum = (m.map Prod.snd).sum + 1 := by
  induction m with
  | nil => simp [increment]
  | cons e m ih =>
    obtain ⟨k, n⟩ := e
    by_cases hk : k = b
    · simp [increment, hk]; omega
    · simp [increment, hk, ih]; omega

theorem countsUnder_cons (p : String → Bool) (k : String) (m : Freq) (dg : Table) :
    countsUnder p ((k, m) :: dg) =
      (if p k then (m.map Prod.snd).sum else 0) + countsUnder p dg := by
  by_cases hp : p k = true <;> simp [countsUnder, List.filter, hp]

theorem countsUnder_recordTransition (p : String → Bool) (dg : Table) (a b : String) :
    countsUnder p (recordTransition dg a b) = countsUnder p dg + (if p a then 1 else 0) := by
  induction dg with
  | nil =>
    rw [recordTransition_nil, countsUnder_cons]
    by_cases hp : p a = true <;> simp [countsUnder, hp]
  | cons e dg ih =>
    obtain ⟨k, m⟩ := e
    rw [recordTransition_cons]
    by_cases hk : k = a
    · subst hk
      simp only [if_true, countsUnder_cons, sum_increment]
      by_cases hp : p k = true <;> simp [hp]; omega
    · simp only [hk, if_false, countsUnder_cons, ih]
      omega

theorem increment_stored (m : Freq) (b : String) (h : ∀ q ∈ m, 1 ≤ q.2) :
    increment m b ≠ [] ∧ ∀ q ∈ increment m b, 1 ≤ q.2 := by
  induction m with
  | nil => simp [increment]
  | cons e m ih =>
    obtain ⟨k, n⟩ := e
    have hm : ∀ q ∈ m, 1 ≤ q.2 := fun q hq => h q (List.mem_cons_of_mem _ hq)
    by_cases hk : k = b
    · refine ⟨by simp [increment, hk], ?_⟩
      intro q hq
      simp only [increment, hk, if_true, List.mem_cons] at hq
      rcases hq with hq | hq
      · rw [hq]; simp
      · exact hm q hq
    · refine ⟨by simp [increment, hk], ?_⟩
      intro q hq
      simp only [increment, hk, if_false, List.mem_cons] at hq
      rcases hq with hq | hq
      · rw [hq]; exact h (k, n) (List.mem_cons_self _ _)
      · exact (ih hm).2 q hq

theorem Stored.recordTransition {dg : Table} (h : Stored dg) (a b : String) :
    Stored (recordTransition dg a b) := by
  induction dg with
  | nil =>
    rw [recordTransition_nil]
    intro e he
    rw [List.mem_singleton.1 he]
    simp
  | cons e dg ih =>
    obtain ⟨k, m⟩ := e
    have hdg : Stored dg := fun e he => h e (List.mem_cons_of_mem _ he)
    have hkm := h (k, m) (List.mem_cons_self _ _)
    rw [recordTransition_cons]
    by_cases hk : k = a
    · simp only [hk, if_true]
      intro e he
      rcases List.mem_cons.1 he with he | he
      · rw [he]; exact increment_stored m b hkm.2
      · exact hdg e he
    · simp only [hk, if_false]
      intro e he
      rcases List.mem_cons.1 he with he | he
      · rw [he]; exact hkm
      · exact ih hdg e he

/-! ## The table: all the transitions of a list of pairs -/

theorem recordAll_nil (dg : Table) : recordAll dg [] = dg := rfl

theorem recordAll_cons (dg : Table) (q : String × String) (pairs : List (String × String)) :
    recordAll dg (q :: pairs) = recordAll (recordTransition dg q.1 q.2) pairs := rfl

theorem recordAll_append (dg : Table) (ps qs : List (String × String)) :
    recordAll dg (ps ++ qs) = recordAll (recordAll dg ps) qs := by
  simp [recordAll, List.foldl_append]

theorem Stored.recordAll {dg : Table} (h : Stored dg) (pairs : List (String × String)) :
    Stored (recordAll dg pairs) := by
  induction pairs generalizing dg with
  | nil => exact h
  | cons q pairs ih => rw [recordAll_cons]; exact ih (h.recordTransition q.1 q.2)

theorem countsUnder_recordAll (p : String → Bool) (pairs : List (String × String)) :
    ∀ dg : Table, countsUnder p (recordAll dg pairs) =
      countsUnder p dg + (pairs.filter (fun q => p q.1)).length := by
  induction pairs with
  | nil => intro dg; simp [recordAll_nil]
  | cons q pairs ih =>
    intro dg
    rw [recordAll_cons, ih, countsUnder_recordTransition]
    by_cases hp : p q.1 = true <;> simp [List.filter, hp]; omega

theorem isSome_lookup?_recordAll (pairs : List (String × String)) (x : String) :
    ∀ dg : Table, (lookup? (recordAll dg pairs) x).isSome = true ↔
      ((lookup? dg x).isSome = true ∨ ∃ y, (x, y) ∈ pairs) := by
  induction pairs with
  | nil => intro dg; simp [recordAll_nil]
  | cons q pairs ih =>
    intro dg
    obtain ⟨a, b⟩ := q
    rw [recordAll_cons, ih, isSome_lookup?_recordTransition]
    simp only [Bool.or_eq_true, decide_eq_true_eq, List.mem_cons, Prod.mk.injEq]
    constructor
    · rintro ((h | h) | ⟨y, hy⟩)
      · exact Or.inl h
      · exact Or.inr ⟨b, Or.inl ⟨h, rfl⟩⟩
      · exact Or.inr ⟨y, Or.inr hy⟩
    · rintro (h | ⟨y, (⟨h, _⟩ | hy)⟩)
      · exact Or.inl (Or.inl h)
      · exact Or.inl (Or.inr h)
      · exact Or.inr ⟨y, hy⟩

theorem entry?_recordAll (pairs : List (String × String)) (x y : String) :
    ∀ dg : Table, entry? (recordAll dg pairs) x y =
      if pairs.count (x, y) = 0 then entry? dg x y
      else some (count dg x y + pairs.count (x, y)) := by
  induction pairs with
  | nil => intro dg; simp [recordAll_nil]
  | cons q pairs ih =>
    intro dg
    obtain ⟨a, b⟩ := q
    rw [recordAll_cons, ih]
    simp only [count, entry?_recordTransition, List.count_cons]
    by_cases hxy : x = a ∧ y = b
    · obtain ⟨hx, hy⟩ := hxy
      subst hx; subst hy
      by_cases hc : List.count (x, y) pairs = 0
      · simp [hc]
      · simp [hc]; omega
    · have hne : ¬ ((a, b) = (x, y)) := by
        intro e
        simp only [Prod.mk.injEq] at e
        exact hxy ⟨e.1.symm, e.2.symm⟩
      simp [hxy, hne]

/-! ## The counting loop -/

theorem adjacentPairs_drop (words : List String) (i : Nat) (a b : String)
    (ha : words[i]? = some a) (hb : words[i + 1]? = some b) :
    adjacentPairs (words.drop i) = (a, b) :: adjacentPairs (words.drop (i + 1)) := by
  have hi : i < words.length := (List.getElem?_eq_some_iff.1 ha).1
  have hi1 : i + 1 < words.length := (List.getElem?_eq_some_iff.1 hb).1
  have e1 : words.drop i = a :: words.drop (i + 1) := by
    rw [List.drop_eq_getElem_cons hi]
    have : words[i] = a := (List.getElem?_eq_some_iff.1 ha).2
    rw [this]
  have e2 : words.drop (i + 1) = b :: words.drop (i + 1 + 1) := by
    rw [List.drop_eq_getElem_cons hi1]
    have : words[i + 1] = b := (List.getElem?_eq_some_iff.1 hb).2
    rw [this]
  rw [e1, e2, adjacentPairs, ← e2]

/-- With `k` iterations left from index `i` and `i + k + 1` equal to the size, the loop reads
inside the vector only and records the adjacent pairs from index `i` on. -/
theorem countLoop_eq (words : List String) : ∀ (k i : Nat) (dg : Table),
    i + k + 1 = words.length →
      countLoop words k i dg = some (recordAll dg (adjacentPairs (words.drop i))) := by
  intro k
  induction k with
  | zero =>
    intro i dg h
    have hi : i < words.length := by omega
    have e1 : words.drop i = [words[i]] := by
      rw [List.drop_eq_getElem_cons hi]
      have : words.drop (i + 1) = [] := List.drop_eq_nil_of_le (by omega)
      rw [this]
    simp [countLoop, e1, adjacentPairs, recordAll_nil]
  | succ k ih =>
    intro i dg h
    have hi : i < words.length := by omega
    have hi1 : i + 1 < words.length := by omega
    have ha : words[i]? = some words[i] := List.getElem?_eq_getElem hi
    have hb : words[i + 1]? = some words[i + 1] := List.getElem?_eq_getElem hi1
    rw [countLoop, ha, hb]
    simp only
    rw [ih (i + 1) _ (by omega), adjacentPairs_drop words i _ _ ha hb, recordAll_cons]

theorem loopBound_of_ne_nil (words : List String) (hne : words ≠ [])
    (hsize : words.length < 2 ^ 64) : loopBound words + 1 = words.length := by
  have hpos : 0 < words.length := List.length_pos.2 hne
  unfold loopBound
  have e : words.length + 2 ^ 64 - 1 = (words.length - 1) + 2 ^ 64 := by omega
  rw [e, Nat.add_mod_right, Nat.mod_eq_of_lt (by omega)]
  omega

/-- On a non-empty token vector the counting loop records exactly the adjacent pairs. -/
theorem addDocument_of_ne_nil (dg : Table) (words : List String) (hne : words ≠ [])
    (hsize : words.length < 2 ^ 64) :
    addDocument dg words = some (recordAll dg (adjacentPairs words)) := by
  unfold addDocument
  have h := countLoop_eq words (loopBound words) 0 dg
    (by have := loopBound_of_ne_nil words hne hsize; omega)
  simpa using h

/-- On the empty token vector the bound wraps around to `2^64 - 1`, the loop is entered
and its first iteration reads `words[0]` outside the vector. -/
theorem addDocument_nil (dg : Table) : addDocument dg [] = none := by
  have e : loopBound [] = (2 ^ 64 - 2) + 1 := by decide
  unfold addDocument
  rw [e, countLoop]
  rfl

theorem foldlM_addDocument (docs : List (List String))
    (hsize : ∀ d ∈ docs, d.length < 2 ^ 64) : ∀ dg : Table,
    docs.foldlM addDocument dg =
      if ∀ d ∈ docs, d ≠ [] then some (recordAll dg (docs.flatMap adjacentPairs)) else none := by
  induction docs with
  | nil => intro dg; simp [recordAll_nil]
  | cons d docs ih =>
    intro dg
    have hs : ∀ d ∈ docs, d.length < 2 ^ 64 := fun x hx => hsize x (List.mem_cons_of_mem _ hx)
    rw [List.foldlM_cons]
    by_cases hd : d = []
    · subst hd
      simp [addDocument_nil]
    · rw [addDocument_of_ne_nil dg d hd (hsize d (List.mem_cons_self _ _))]
      simp only [Option.some_bind, Option.bind_eq_bind, ih hs, List.flatMap_cons,
        recordAll_append, List.mem_cons, forall_eq_or_imp]
      simp [hd]

/-- The constructor loop succeeds exactly when no token vector is empty, and the table is then
the one obtained by recording every adjacent pair of every document. -/
theorem buildTable_eq (docs : List (List String)) (hsize : ∀ d ∈ docs, d.length < 2 ^ 64) :
    buildTable docs =
      if ∀ d ∈ docs, d ≠ [] then some (recordAll [] (docs.flatMap adjacentPairs)) else none :=
  foldlM_addDocument docs hsize []

/-! ## Reading the built table -/

theorem mem_of_lookup? {β : Type} (m : List (String × β)) (a : String) (v : β)
    (h : lookup? m a = some v) : (a, v) ∈ m := by
  induction m with
  | nil => simp [lookup?] at h
  | cons e m ih =>
    obtain ⟨k, w⟩ := e
    by_cases hk : k = a
    · simp [lookup?, hk] at h
      simp [hk, h]
    · simp only [lookup?, hk, if_false] at h
      exact List.mem_cons_of_mem _ (ih h)

theorem count_recordAll_nil (pairs : List (String × String)) (x y : String) :
    count (recordAll [] pairs) x y = pairs.count (x, y) := by
  unfold count
  rw [entry?_recordAll]
  by_cases hc : List.count (x, y) pairs = 0
  · simp [hc, entry?, lookup?]
  · simp [hc, count, entry?, lookup?]

theorem mem_adjacentPairs_iff (words : List String) (a b : String) :
    (a, b) ∈ adjacentPairs words ↔ ∃ i, words[i]? = some a ∧ words[i + 1]? = some b := by
  induction words with
  | nil => simp [adjacentPairs]
  | cons x rest ih =>
    cases rest with
    | nil => simp [adjacentPairs]
    | cons y rest =>
      rw [adjacentPairs, List.mem_cons, ih]
      constructor
      · rintro (h | ⟨i, h1, h2⟩)
        · simp only [Prod.mk.injEq] at h
          exact ⟨0, by simp [h.1], by simp [h.2]⟩
        · exact ⟨i + 1, by simpa using h1, by simpa using h2⟩
      · rintro ⟨i, h1, h2⟩
        cases i with
        | zero =>
          left
          simp only [List.getElem?_cons_zero, Option.some.injEq, zero_add,
            List.getElem?_cons_succ] at h1 h2
          rw [h1, h2]
        | succ i =>
          right
          exact ⟨i, by simpa using h1, by simpa using h2⟩

/-- A token has a pair starting with it exactly when it occurs at a position that is not
the last one of the vector. -/
theorem exists_adjacentPairs_iff (words : List String) (a : String) :
    (∃ b, (a, b) ∈ adjacentPairs words) ↔ ∃ i, words[i]? = some a ∧ i + 1 < words.length := by
  constructor
  · rintro ⟨b, hb⟩
    obtain ⟨i, h1, h2⟩ := (mem_adjacentPairs_iff words a b).1 hb
    exact ⟨i, h1, (List.getElem?_eq_some_iff.1 h2).1⟩
  · rintro ⟨i, h1, h2⟩
    exact ⟨words[i + 1], (mem_adjacentPairs_iff words a _).2
      ⟨i, h1, List.getElem?_eq_getElem h2⟩⟩

theorem length_filter_flatMap (docs : List (List String)) (p : String × String → Bool) :
    ((docs.flatMap adjacentPairs).filter p).length =
      (docs.map (fun d => ((adjacentPairs d).filter p).length)).sum := by
  induction docs with
  | nil => rfl
  | cons d docs ih => simp [List.flatMap_cons, List.filter_append, ih]

theorem count_flatMap_adjacentPairs (docs : List (List String)) (q : String × String) :
    (docs.flatMap adjacentPairs).count q =
      (docs.map (fun d => (adjacentPairs d).count q)).sum := by
  induction docs with
  | nil => rfl
  | cons d docs ih => simp [List.flatMap_cons, List.count_append, ih]

theorem buildTable_of_some (docs : List (List String)) (hsize : ∀ d ∈ docs, d.length < 2 ^ 64)
    (dg : Table) (h : buildTable docs = some dg) :
    (∀ d ∈ docs, d ≠ []) ∧ dg = recordAll [] (docs.flatMap adjacentPairs) := by
  rw [buildTable_eq docs hsize] at h
  by_cases hne : ∀ d ∈ docs, d ≠ []
  · rw [if_pos hne] at h
    exact ⟨hne, (Option.some.inj h).symm⟩
  · rw [if_neg hne] at h
    exact absurd h (by simp)

theorem buildTable_singleton (d : List String) (hsize : d.length < 2 ^ 64) (hne : d ≠ []) :
    buildTable [d] = some (recordAll [] (adjacentPairs d)) := by
  rw [buildTable_eq [d] (by simpa using hsize)]
  simp [hne]

theorem stored_nil : Stored [] := by
  intro e he
  simp at he

theorem length_adjacentPairs (words : List String) :
    (adjacentPairs words).length = words.length - 1 := by
  induction words with
  | nil => rfl
  | cons x rest ih =>
    cases rest with
    | nil => rfl
    | cons y rest =>
      rw [adjacentPairs, List.length_cons, ih]
      simp

/-- On a corpus of non-empty documents the counts of the built table sum to the number of
adjacent pairs, one less than the number of tokens for each document. -/
theorem totalCount_buildTable (docs : List (List String))
    (hsize : ∀ d ∈ docs, d.length < 2 ^ 64) (hne : ∀ d ∈ docs, d ≠ []) :
    (buildTable docs).map totalCount = some ((docs.map (fun d => d.length - 1)).sum) := by
  rw [buildTable_eq docs hsize, if_pos hne, Option.map_some', totalCount,
    countsUnder_recordAll]
  have e := length_filter_flatMap docs (fun _ => true)
  simp only [List.filter_true] at e
  simp [countsUnder, e, length_adjacentPairs]

/-! ## The range of `int`

Counts, totals, running sums and loop indices are `int` in the source and `Nat` here.  The
two agree below `2^31`; the statements about them assume a corpus of fewer than `2^31`
tokens, or an entry total below `2^31`, and the lemmas of this section show that the loop
index, every stored count and every entry total then stay below `2^31`. -/

theorem length_le_sum_lengths (docs : List (List String)) (d : List String) (hd : d ∈ docs) :
    d.length ≤ (docs.map List.length).sum := by
  induction docs with
  | nil => simp at hd
  | cons x docs ih =>
    simp only [List.map_cons, List.sum_cons]
    rcases List.mem_cons.1 hd with h | h
    · rw [h]; omega
    · have := ih h
      omega

/-- In a corpus of fewer than `2^31` tokens every token vector fits `size_t`, and the index
`i` of the counting loop, which stays below the size, fits `int`. -/
theorem size_of_small_corpus (docs : List (List String))
    (hint : (docs.map List.length).sum < 2 ^ 31) :
    ∀ d ∈ docs, d.length < 2 ^ 64 := by
  intro d hd
  have h1 := length_le_sum_lengths docs d hd
  have h2 : (2 : Nat) ^ 31 < 2 ^ 64 := by decide
  omega

theorem sum_pred_le_sum_lengths (docs : List (List String)) :
    (docs.map (fun d => d.length - 1)).sum ≤ (docs.map List.length).sum := by
  induction docs with
  | nil => simp
  | cons x docs ih =>
    simp only [List.map_cons, List.sum_cons]
    omega

theorem entry_sum_le_totalCount (dg : Table) (e : String × Freq) (he : e ∈ dg) :
    (e.2.map Prod.snd).sum ≤ totalCount dg := by
  induction dg with
  | nil => simp at he
  | cons x dg ih =>
    obtain ⟨k, m⟩ := x
    unfold totalCount at ih ⊢
    rw [countsUnder_cons]
    simp only [if_true]
    rcases List.mem_cons.1 he with h | h
    · rw [h]
      show (m.map Prod.snd).sum ≤ _
      omega
    · have := ih h
      omega

theorem count_le_sum (m : Freq) (q : String × Nat) (hq : q ∈ m) :
    q.2 ≤ (m.map Prod.snd).sum := by
  induction m with
  | nil => simp at hq
  | cons x m ih =>
    simp only [List.map_cons, List.sum_cons]
    rcases List.mem_cons.1 hq with h | h
    · rw [h]; omega
    · have := ih h
      omega

/-- The table built from a corpus of fewer than `2^31` tokens satisfies the invariant of the
data model, and every entry total and every stored count in it is below `2^31`. -/
theorem buildTable_bounded (docs : List (List String))
    (hint : (docs.map List.length).sum < 2 ^ 31) (dg : Table) (h : buildTable docs = some dg) :
    Stored dg ∧ ∀ e ∈ dg, (e.2.map Prod.snd).sum < 2 ^ 31 ∧ ∀ q ∈ e.2, q.2 < 2 ^ 31 := by
  have hsize := size_of_small_corpus docs hint
  obtain ⟨hne, hdg⟩ := buildTable_of_some docs hsize dg h
  have hst : Stored dg := by rw [hdg]; exact stored_nil.recordAll _
  have htot : totalCount dg < 2 ^ 31 := by
    have ht := totalCount_buildTable docs hsize hne
    rw [h] at ht
    have ht2 : totalCount dg = (docs.map (fun d => d.length - 1)).sum := by simpa using ht
    have := sum_pred_le_sum_lengths docs
    omega
  refine ⟨hst, ?_⟩
  intro e he
  have h1 := entry_sum_le_totalCount dg e he
  refine ⟨by omega, ?_⟩
  intro q hq
  have h2 := count_le_sum e.2 q hq
  omega

/-! ## The table: the claims -/

/-- C6 (the virtual start token is not recorded): for the corpus of the single document
`Hello world` the constructor loop yields the table with the single transition from
`Hello` to `world`; the token `.` has no entry and the count of the transition from `.` to
the first token `Hello` is 0. -/
theorem virtual_start_not_recorded :
    buildTable [["Hello", "world"]] = some [("Hello", [("world", 1)])] ∧
    (buildTable [["Hello", "world"]]).map (fun dg => lookup? dg ".") = some none ∧
    (buildTable [["Hello", "world"]]).map (fun dg => count dg "." "Hello") = some 0 := by
  decide

/-- C7, as stated, fails: for the corpus of the single document `a b` the counts of the
table sum to 1, while the number of tokens plus the number of non-empty documents is 3. -/
theorem count_conservation_counterexample :
    (buildTable [["a", "b"]]).map totalCount = some 1 ∧
    ([["a", "b"]].map List.length).sum +
      ([["a", "b"]].filter (fun d => decide (d ≠ []))).length = 3 := by
  decide

/-- C7, amended: for every corpus of non-empty documents with fewer than `2^31` tokens in
all, construction completes and the sum of the counts stored under the predecessors other
than `.` equals the number of adjacent pairs `(t(i), t(i+1))` inside the documents with
`t(i)` other than `.`. -/
theorem counts_under_real_predecessors (docs : List (List String))
    (hint : (docs.map List.length).sum < 2 ^ 31) (hne : ∀ d ∈ docs, d ≠ []) :
    (buildTable docs).map (countsUnder (fun a => decide (a ≠ "."))) =
      some ((docs.map (fun d =>
        ((adjacentPairs d).filter (fun q => decide (q.1 ≠ "."))).length)).sum) := by
  rw [buildTable_eq docs (size_of_small_corpus docs hint), if_pos hne, Option.map_some',
    countsUnder_recordAll, length_filter_flatMap]
  simp [countsUnder]

/-- Instance of the amended C7 at a corpus of two documents, one of them starting with `.`. -/
theorem counts_under_real_predecessors_witness :
    (buildTable [[".", "a", "b", "."], ["c"]]).map (countsUnder (fun a => decide (a ≠ "."))) =
      some (([[".", "a", "b", "."], ["c"]].map (fun d =>
        ((adjacentPairs d).filter (fun q => decide (q.1 ≠ "."))).length)).sum) :=
  counts_under_real_predecessors [[".", "a", "b", "."], ["c"]] (by decide) (by decide)

/-- C8 (the entry of `.` is missing): with every document prefixed by the virtual token `.`,
in the corpus of the documents `a b` and `c` the token `.` is immediately followed by `a` and
by `c`; the table that the constructor loop builds has the single entry of `a` and no entry
for `.`. -/
theorem start_token_has_no_entry :
    (∀ d ∈ [["a", "b"], ["c"]], ∃ i, ("." :: d)[i]? = some "." ∧ i + 1 < ("." :: d).length) ∧
    buildTable [["a", "b"], ["c"]] = some [("a", [("b", 1)])] ∧
    lookup? [("a", [("b", 1)])] "." = none := by
  refine ⟨?_, by decide, by decide⟩
  intro d hd
  have hne : d ≠ [] := by
    revert d
    decide
  refine ⟨0, by simp, ?_⟩
  cases d with
  | nil => exact absurd rfl hne
  | cons x rest => simp

/-- C9 (order independence): when construction completes on a corpus of fewer than `2^31`
tokens, it completes on every permutation of its documents and yields the same table as a
map: the same tokens have an entry and every pair of tokens has the same stored count or is
absent in both; and the count of every pair is the sum over the documents of its count in
the table of that document alone. -/
theorem table_order_independent (docs docs2 : List (List String))
    (hint : (docs.map List.length).sum < 2 ^ 31) (hperm : docs.Perm docs2)
    (dg : Table) (h : buildTable docs = some dg) :
    (∃ dg2, buildTable docs2 = some dg2 ∧
      ∀ a, (lookup? dg2 a).isSome = (lookup? dg a).isSome ∧
        ∀ b, entry? dg2 a b = entry? dg a b) ∧
    (∀ a b, count dg a b =
      (docs.map (fun d => ((buildTable [d]).map (fun t => count t a b)).getD 0)).sum) := by
  have hsize := size_of_small_corpus docs hint
  obtain ⟨hne, hdg⟩ := buildTable_of_some docs hsize dg h
  have hsize2 : ∀ d ∈ docs2, d.length < 2 ^ 64 := fun d hd => hsize d (hperm.mem_iff.2 hd)
  have hne2 : ∀ d ∈ docs2, d ≠ [] := fun d hd => hne d (hperm.mem_iff.2 hd)
  have hpairs : (docs.flatMap adjacentPairs).Perm (docs2.flatMap adjacentPairs) :=
    hperm.flatMap_right adjacentPairs
  refine ⟨⟨recordAll [] (docs2.flatMap adjacentPairs), ?_, ?_⟩, ?_⟩
  · rw [buildTable_eq docs2 hsize2, if_pos hne2]
  · intro a
    constructor
    · rw [Bool.eq_iff_iff, hdg, isSome_lookup?_recordAll, isSome_lookup?_recordAll]
      simp only [hpairs.mem_iff]
    · intro b
      have hc : (docs.flatMap adjacentPairs).count (a, b) =
          (docs2.flatMap adjacentPairs).count (a, b) := by
        simp only [List.count]
        exact hpairs.countP_eq _
      rw [hdg, entry?_recordAll, entry?_recordAll, hc]
  · intro a b
    rw [hdg, count_recordAll_nil, count_flatMap_adjacentPairs]
    refine congrArg List.sum (List.map_congr_left ?_)
    intro d hd
    rw [buildTable_singleton d (hsize d hd) (hne d hd)]
    simp [count_recordAll_nil]

/-- Instance of C9 at a corpus of three documents and a rotation of it. -/
theorem table_order_independent_witness :
    (∃ dg2, buildTable [["b", "a"], ["c"], ["a", "b", "a", "b"]] = some dg2 ∧
      ∀ a, (lookup? dg2 a).isSome =
          (lookup? [("a", [("b", 2)]), ("b", [("a", 2)])] a).isSome ∧
        ∀ b, entry? dg2 a b = entry? [("a", [("b", 2)]), ("b", [("a", 2)])] a b) ∧
    (∀ a b, count [("a", [("b", 2)]), ("b", [("a", 2)])] a b =
      ([["a", "b", "a", "b"], ["b", "a"], ["c"]].map
        (fun d => ((buildTable [d]).map (fun t => count t a b)).getD 0)).sum) :=
  table_order_independent [["a", "b", "a", "b"], ["b", "a"], ["c"]]
    [["b", "a"], ["c"], ["a", "b", "a", "b"]] (by decide)
    (by decide)
    [("a", [("b", 2)]), ("b", [("a", 2)])] (by decide)

/-! ## generateNextWord: the claims -/

/-- C10 (fallback determinism): for every table, every token without an entry and every
value of the random draw, `generateNextWord` returns `.` without a fault; the table built
from the empty corpus is empty, and on it `generateNextWord` returns `.` for every token. -/
theorem generateNextWord_fallback :
    (∀ (dg : Table) (prevWord : String) (rnd : Nat), lookup? dg prevWord = none →
      generateNextWord dg prevWord rnd = some ".") ∧
    (DocumentGenerator [] = some [] ∧
      ∀ (prevWord : String) (rnd : Nat), generateNextWord [] prevWord rnd = some ".") := by
  refine ⟨?_, rfl, ?_⟩
  · intro dg prevWord rnd h
    simp [generateNextWord, h]
  · intro prevWord rnd
    simp [generateNextWord, lookup?]

/-- Instance of C10 at a table with one entry and the token `baz`, which has none. -/
theorem generateNextWord_fallback_witness :
    lookup? [("foo", [("bar", 2), ("baz", 8)])] "baz" = none ∧
    generateNextWord [("foo", [("bar", 2), ("baz", 8)])] "baz" 7 = some "." :=
  ⟨by decide,
    generateNextWord_fallback.1 [("foo", [("bar", 2), ("baz", 8)])] "baz" 7 (by decide)⟩

/-! ## Tokenizer: lines and whole text -/

theorem splitOnP_append_sep (p : Char → Bool) (xs : List Char) (sep : Char) (hsep : p sep = true)
    (ys : List Char) :
    (xs ++ sep :: ys).splitOnP p = xs.splitOnP p ++ ys.splitOnP p := by
  induction xs with
  | nil => simp [hsep]
  | cons x xs ih =>
    rw [List.cons_append, List.splitOnP_cons, List.splitOnP_cons, ih]
    by_cases hx : p x = true
    · simp [hx]
    · simp only [hx, Bool.false_eq_true, if_false]
      cases hA : List.splitOnP p xs with
      | nil => exact absurd hA (List.splitOnP_ne_nil p xs)
      | cons A As => rfl

theorem splitOnWhitespace_append_sep (xs : List Char) (sep : Char) (hsep : sep ∈ whitespace.data)
    (ys : List Char) :
    splitOnWhitespace (xs ++ sep :: ys) = splitOnWhitespace xs ++ splitOnWhitespace ys := by
  unfold splitOnWhitespace
  rw [splitOnP_append_sep _ xs sep (by simpa using hsep), List.filter_append, List.map_append]

theorem removeUnwanted_append (xs ys : List Char) :
    removeUnwanted (xs ++ ys) = removeUnwanted xs ++ removeUnwanted ys := by
  simp [removeUnwanted]

theorem tokenize_append_newline (a b : String) :
    tokenize (a ++ "\n" ++ b) = tokenize a ++ tokenize b := by
  rw [tokenize_eq_splitOnWhitespace, tokenize_eq_splitOnWhitespace, tokenize_eq_splitOnWhitespace]
  have hd : (a ++ "\n" ++ b).data = a.data ++ '\n' :: b.data := by
    simp [String.data_append]
  have hk : removeUnwanted ('\n' :: b.data) = '\n' :: removeUnwanted b.data := by
    have hn : '\n' ∉ UNWANTED_CHARACTERS.data := by decide
    simp [removeUnwanted, hn]
  rw [hd, removeUnwanted_append, hk]
  exact splitOnWhitespace_append_sep _ _ (by decide) _

theorem foldl_tokenize (fileLines : List String) : ∀ words : List String,
    fileLines.foldl (fun words line => words ++ tokenize line) words =
      words ++ getWords fileLines := by
  induction fileLines with
  | nil => intro words; simp [getWords]
  | cons line rest ih =>
    intro words
    simp only [getWords, List.foldl_cons, List.nil_append]
    rw [ih (words ++ tokenize line), ih (tokenize line), List.append_assoc]

theorem getWords_cons (line : String) (rest : List String) :
    getWords (line :: rest) = tokenize line ++ getWords rest := by
  have h := foldl_tokenize rest (tokenize line)
  simpa [getWords] using h

theorem getWords_eq_tokenize_joinLines (fileLines : List String) :
    getWords fileLines = tokenize (joinLines fileLines) := by
  induction fileLines with
  | nil => decide
  | cons line rest ih =>
    cases rest with
    | nil => simp [getWords_cons, joinLines, getWords]
    | cons line2 rest =>
      have e : joinLines (line :: line2 :: rest) =
          line ++ "\n" ++ joinLines (line2 :: rest) := rfl
      rw [getWords_cons, ih, e, tokenize_append_newline]

/-- C20 (line-wise tokenization agrees with whole-text tokenization): for all strings `a` and
`b`, `tokenize (a ++ "\n" ++ b) = tokenize a ++ tokenize b`, and the token vector that
`getWords` builds from the lines of a file is `tokenize` of the lines joined by newlines. -/
theorem tokenize_linewise (a b : String) (fileLines : List String) :
    tokenize (a ++ "\n" ++ b) = tokenize a ++ tokenize b ∧
    getWords fileLines = tokenize (joinLines fileLines) :=
  ⟨tokenize_append_newline a b, getWords_eq_tokenize_joinLines fileLines⟩

/-- C16 (the round trip fails on the code): the text `a .` holds no unwanted character and
`tokenize` gives the tokens `a` and `.`; the spacing rule joins them to ` a.`, and `tokenize`
of that string gives the single token `a.`; the documented tokenizer returns `a` and `.` for
both strings. -/
theorem tokenize_roundtrip_fails :
    tokenize "a ." = ["a", "."] ∧
    (∀ c ∈ "a .".data, c ∉ UNWANTED_CHARACTERS.data) ∧
    joinTokens (tokenize "a .") = " a." ∧
    tokenize (joinTokens (tokenize "a .")) = ["a."] ∧
    tokenizeSpec "a ." = ["a", "."] ∧ tokenizeSpec " a." = ["a", "."] := by
  decide

/-- C17 (the empty document is not skipped): for the empty token vector the loop bound
`words->size()-1` is `2^64 - 1`, so the counting loop is entered and its first iteration reads
`words[0]` outside the vector; the constructor faults on a corpus that holds an empty file
or a file of blank lines, whatever the table was before. -/
theorem empty_document_faults (dg : Table) :
    loopBound [] = 2 ^ 64 - 1 ∧ 0 < loopBound [] ∧ ([] : List String)[0]? = none ∧
    addDocument dg [] = none ∧
    DocumentGenerator [[]] = none ∧ DocumentGenerator [["a b"], [" ", ""]] = none := by
  refine ⟨by decide, by decide, rfl, addDocument_nil dg, by decide, by decide⟩

/-! ## generateNextWord: the selection loop -/

theorem selectLoop_cons (w : String) (f : Nat) (m : Freq) (r tmp : Nat) (d : String) :
    selectLoop (((w, f) :: m).map Prod.fst) (((w, f) :: m).map Prod.snd) r tmp d =
      if r < tmp + f then w else selectLoop (m.map Prod.fst) (m.map Prod.snd) r (tmp + f) d := by
  simp [selectLoop]

/-- A draw inside the window of the running sums selects a candidate of the entry. -/
theorem selectLoop_mem (m : Freq) (d : String) : ∀ (r tmp : Nat), tmp ≤ r →
    r < tmp + (m.map Prod.snd).sum →
      selectLoop (m.map Prod.fst) (m.map Prod.snd) r tmp d ∈ m.map Prod.fst := by
  induction m with
  | nil => intro r tmp h1 h2; simp at h2; omega
  | cons e m ih =>
    obtain ⟨w, f⟩ := e
    intro r tmp h1 h2
    rw [selectLoop_cons]
    by_cases hr : r < tmp + f
    · simp [hr]
    · simp only [hr, if_false]
      refine List.mem_cons_of_mem _ (ih r (tmp + f) (by omega) ?_)
      simp only [List.map_cons, List.sum_cons] at h2
      omega

theorem selectLoop_shift (m : Freq) (d : String) (t : Nat) : ∀ (r tmp : Nat),
    selectLoop (m.map Prod.fst) (m.map Prod.snd) (r + t) (tmp + t) d =
      selectLoop (m.map Prod.fst) (m.map Prod.snd) r tmp d := by
  induction m with
  | nil => intro r tmp; simp [selectLoop]
  | cons e m ih =>
    obtain ⟨w, f⟩ := e
    intro r tmp
    rw [selectLoop_cons, selectLoop_cons]
    have e1 : tmp + t + f = (tmp + f) + t := by omega
    by_cases hr : r < tmp + f
    · have hr2 : r + t < tmp + t + f := by omega
      simp [hr, hr2]
    · have hr2 : ¬ r + t < tmp + t + f := by omega
      simp only [hr, hr2, if_false]
      rw [e1, ih]

theorem countP_of_forall (l : List Nat) (p : Nat → Bool) (b : Bool) (h : ∀ a ∈ l, p a = b) :
    l.countP p = if b = true then l.length else 0 := by
  induction l with
  | nil => simp
  | cons a l ih =>
    have ha := h a (List.mem_cons_self _ _)
    have hl := ih (fun x hx => h x (List.mem_cons_of_mem _ hx))
    cases b <;> simp [List.countP_cons, ha, hl]

/-- Among the draws below the total, exactly `n` select a candidate stored with count `n`. -/
theorem countP_selectLoop (d : String) (m : Freq) (hnd : (m.map Prod.fst).Nodup)
    (c : String) (n : Nat) (hc : (c, n) ∈ m) :
    (List.range (m.map Prod.snd).sum).countP
      (fun r => decide (selectLoop (m.map Prod.fst) (m.map Prod.snd) r 0 d = c)) = n := by
  induction m with
  | nil => simp at hc
  | cons e m ih =>
    obtain ⟨w, f⟩ := e
    simp only [List.map_cons, List.nodup_cons] at hnd
    have hsum : (((w, f) :: m).map Prod.snd).sum = f + (m.map Prod.snd).sum := by simp
    rw [hsum, List.range_add, List.countP_append, List.countP_map]
    have h1 : ∀ r ∈ List.range f,
        decide (selectLoop (((w, f) :: m).map Prod.fst) (((w, f) :: m).map Prod.snd) r 0 d = c) =
          decide (w = c) := by
      intro r hr
      have hr2 : r < 0 + f := by simpa using hr
      rw [selectLoop_cons, if_pos hr2]
    have h2 : ∀ j ∈ List.range (m.map Prod.snd).sum,
        ((fun r => decide (selectLoop (((w, f) :: m).map Prod.fst)
          (((w, f) :: m).map Prod.snd) r 0 d = c)) ∘ fun x => f + x) j =
          decide (selectLoop (m.map Prod.fst) (m.map Prod.snd) j 0 d = c) := by
      intro j _
      have hj : ¬ f + j < 0 + f := by omega
      simp only [Function.comp]
      rw [selectLoop_cons, if_neg hj]
      have := selectLoop_shift m d f j 0
      rw [Nat.add_comm j f] at this
      rw [this]
    rw [countP_of_forall _ _ _ h1, List.countP_congr (fun j hj => by rw [h2 j hj])]
    rcases List.mem_cons.1 hc with hc | hc
    · simp only [Prod.mk.injEq] at hc
      obtain ⟨hcw, hnf⟩ := hc
      subst hcw; subst hnf
      have h3 : ∀ j ∈ List.range (m.map Prod.snd).sum,
          decide (selectLoop (m.map Prod.fst) (m.map Prod.snd) j 0 d = c) = false := by
        intro j hj
        have hmem := selectLoop_mem m d j 0 (Nat.zero_le _) (by simpa using hj)
        have : selectLoop (m.map Prod.fst) (m.map Prod.snd) j 0 d ≠ c := by
          intro e; rw [e] at hmem; exact hnd.1 hmem
        simp [this]
      rw [countP_of_forall _ _ _ h3]
      simp
    · have hcm : c ∈ m.map Prod.fst := List.mem_map.2 ⟨(c, n), hc, rfl⟩
      have hwc : ¬ w = c := by intro e; rw [e] at hnd; exact hnd.1 hcm
      rw [ih hnd.2 hc]
      simp [hwc]

theorem generateNextWord_of_lt (dg : Table) (prevWord : String) (m : Freq)
    (hm : lookup? dg prevWord = some m) (r : Nat) (hr : r < (m.map Prod.snd).sum) :
    generateNextWord dg prevWord r =
      some (selectLoop (m.map Prod.fst) (m.map Prod.snd) r 0 ".") := by
  have h0 : ¬ (m.map Prod.snd).sum = 0 := by omega
  simp [generateNextWord, hm, h0, Nat.mod_eq_of_lt hr]

theorem sum_pos_of_stored (m : Freq) (hne : m ≠ []) (hpos : ∀ q ∈ m, 1 ≤ q.2) :
    1 ≤ (m.map Prod.snd).sum := by
  cases m with
  | nil => exact absurd rfl hne
  | cons e m =>
    have := hpos e (List.mem_cons_self _ _)
    simp only [List.map_cons, List.sum_cons]
    omega

theorem lookup?_of_mem_keys (m : Freq) (w : String) (hw : w ∈ m.map Prod.fst) :
    ∃ n, lookup? m w = some n ∧ (w, n) ∈ m := by
  induction m with
  | nil => simp at hw
  | cons e m ih =>
    obtain ⟨k, n⟩ := e
    by_cases hk : k = w
    · exact ⟨n, by simp [lookup?, hk], by simp [hk]⟩
    · have hw2 : w ∈ m.map Prod.fst := by
        rcases List.mem_cons.1 hw with h | h
        · exact absurd h.symm hk
        · exact h
      obtain ⟨n2, h1, h2⟩ := ih hw2
      exact ⟨n2, by simp [lookup?, hk, h1], List.mem_cons_of_mem _ h2⟩

/-- On a table with non-empty inner maps and counts of at least 1, `generateNextWord` returns,
for a token with an entry and every draw, a candidate of that entry. -/
theorem generateNextWord_of_stored (dg : Table) (hst : Stored dg) (prevWord : String) (m : Freq)
    (hm : lookup? dg prevWord = some m) (rnd : Nat) :
    1 ≤ (m.map Prod.snd).sum ∧
    ∃ w, generateNextWord dg prevWord rnd = some w ∧ w ∈ m.map Prod.fst := by
  have hmem := hst (prevWord, m) (mem_of_lookup? dg prevWord m hm)
  have hsum := sum_pos_of_stored m hmem.1 hmem.2
  have h0 : ¬ (m.map Prod.snd).sum = 0 := by omega
  have hlt : rnd % (m.map Prod.snd).sum < (m.map Prod.snd).sum := Nat.mod_lt rnd hsum
  refine ⟨hsum, selectLoop (m.map Prod.fst) (m.map Prod.snd) (rnd % (m.map Prod.snd).sum) 0 ".",
    by simp [generateNextWord, hm, h0], ?_⟩
  exact selectLoop_mem m "." _ 0 (Nat.zero_le _) (by simpa using hlt)

/-! ## generateNextWord: sampling claims -/

/-- C11 (frequency-proportional sampling): for a token whose entry is `m`, in whatever order
the entry lists its candidates, with a total of the counts below `2^31`, and for every
candidate `c` stored with count `n`: every draw `r` in `[0, total)` is a value of `int`, and
exactly `n` of these draws make `generateNextWord` return `c`. -/
theorem sampling_proportional (dg : Table) (prevWord : String) (m : Freq)
    (hm : lookup? dg prevWord = some m) (hnd : (m.map Prod.fst).Nodup)
    (hint : (m.map Prod.snd).sum < 2 ^ 31)
    (c : String) (n : Nat) (hc : (c, n) ∈ m) :
    (∀ r ∈ List.range (m.map Prod.snd).sum, r < 2 ^ 31) ∧
    ((List.range (m.map Prod.snd).sum).filter
      (fun r => decide (generateNextWord dg prevWord r = some c))).length = n := by
  refine ⟨fun r hr => by have := List.mem_range.1 hr; omega, ?_⟩
  rw [← List.countP_eq_length_filter]
  rw [List.countP_congr (q := fun r =>
    decide (selectLoop (m.map Prod.fst) (m.map Prod.snd) r 0 "." = c))]
  · exact countP_selectLoop "." m hnd c n hc
  · intro r hr
    rw [generateNextWord_of_lt dg prevWord m hm r (by simpa using hr)]
    simp

/-- Instance of C11 at the entry `bar: 2, baz: 8` of the doc comment of `generateNextWord`:
2 of the 10 draws give `bar` and 8 give `baz`. -/
theorem sampling_proportional_witness :
    ((∀ r ∈ List.range ([("bar", 2), ("baz", 8)].map Prod.snd).sum, r < 2 ^ 31) ∧
      ((List.range ([("bar", 2), ("baz", 8)].map Prod.snd).sum).filter
        (fun r => decide (generateNextWord [("foo", [("bar", 2), ("baz", 8)])] "foo" r =
          some "bar"))).length = 2) ∧
    ((∀ r ∈ List.range ([("bar", 2), ("baz", 8)].map Prod.snd).sum, r < 2 ^ 31) ∧
      ((List.range ([("bar", 2), ("baz", 8)].map Prod.snd).sum).filter
        (fun r => decide (generateNextWord [("foo", [("bar", 2), ("baz", 8)])] "foo" r =
          some "baz"))).length = 8) :=
  ⟨sampling_proportional [("foo", [("bar", 2), ("baz", 8)])] "foo" [("bar", 2), ("baz", 8)]
      (by decide) (by decide) (by decide) "bar" 2 (by decide),
    sampling_proportional [("foo", [("bar", 2), ("baz", 8)])] "foo" [("bar", 2), ("baz", 8)]
      (by decide) (by decide) (by decide) "baz" 8 (by decide)⟩

theorem keys_increment (m : Freq) (b : String) :
    (increment m b).map Prod.fst =
      if b ∈ m.map Prod.fst then m.map Prod.fst else m.map Prod.fst ++ [b] := by
  induction m with
  | nil => simp [increment]
  | cons e m ih =>
    obtain ⟨k, n⟩ := e
    by_cases hk : k = b
    · simp [increment, hk]
    · have hk2 : ¬ b = k := fun e => hk e.symm
      by_cases hb : b ∈ m.map Prod.fst
      · simp only [increment, hk, if_false, List.map_cons, ih, hb, if_true, List.mem_cons,
          or_true]
      · simp only [increment, hk, if_false, List.map_cons, ih, hb, List.mem_cons, hk2,
          or_self, List.cons_append]

theorem nodup_keys_increment (m : Freq) (b : String) (h : (m.map Prod.fst).Nodup) :
    ((increment m b).map Prod.fst).Nodup := by
  rw [keys_increment]
  by_cases hb : b ∈ m.map Prod.fst
  · simpa [hb] using h
  · simp only [hb, if_false]
    exact List.Nodup.append h (List.nodup_singleton b) (by simpa using hb)

/-- The counting loop keeps the candidates of every entry pairwise distinct. -/
theorem nodup_keys_recordTransition (dg : Table) (a b : String)
    (h : ∀ e ∈ dg, (e.2.map Prod.fst).Nodup) :
    ∀ e ∈ recordTransition dg a b, (e.2.map Prod.fst).Nodup := by
  induction dg with
  | nil =>
    rw [recordTransition_nil]
    intro e he
    rw [List.mem_singleton.1 he]
    simp
  | cons e0 dg ih =>
    obtain ⟨k, m⟩ := e0
    have hdg : ∀ e ∈ dg, (e.2.map Prod.fst).Nodup := fun e he => h e (List.mem_cons_of_mem _ he)
    have hkm := h (k, m) (List.mem_cons_self _ _)
    rw [recordTransition_cons]
    by_cases hk : k = a
    · simp only [hk, if_true]
      intro e he
      rcases List.mem_cons.1 he with he | he
      · rw [he]; exact nodup_keys_increment m b hkm
      · exact hdg e he
    · simp only [hk, if_false]
      intro e he
      rcases List.mem_cons.1 he with he | he
      · rw [he]; exact hkm
      · exact ih hdg e he

theorem nodup_keys_recordAll (pairs : List (String × String)) : ∀ dg : Table,
    (∀ e ∈ dg, (e.2.map Prod.fst).Nodup) →
      ∀ e ∈ recordAll dg pairs, (e.2.map Prod.fst).Nodup := by
  induction pairs with
  | nil => intro dg h; exact h
  | cons q pairs ih =>
    intro dg h
    rw [recordAll_cons]
    exact ih _ (nodup_keys_recordTransition dg q.1 q.2 h)

/-- C19 (sampling safety): in a table produced by construction from a corpus of fewer than
`2^31` tokens, for every token with an entry the total of the counts is at least 1 and below
`2^31`, and for every value of the random draw `generateNextWord` returns without a fault a
candidate of that entry, whose recorded count is at least 1; the default `.` is returned
only when it is such a candidate. -/
theorem sampling_safe (docs : List (List String))
    (hint : (docs.map List.length).sum < 2 ^ 31)
    (dg : Table) (h : buildTable docs = some dg) (prevWord : String) (m : Freq)
    (hm : lookup? dg prevWord = some m) (rnd : Nat) :
    1 ≤ (m.map Prod.snd).sum ∧ (m.map Prod.snd).sum < 2 ^ 31 ∧
    rnd % (m.map Prod.snd).sum < (m.map Prod.snd).sum ∧
    ∃ w, generateNextWord dg prevWord rnd = some w ∧ w ∈ m.map Prod.fst ∧
      1 ≤ count dg prevWord w := by
  obtain ⟨hst, hbound⟩ := buildTable_bounded docs hint dg h
  have hlt := (hbound (prevWord, m) (mem_of_lookup? dg prevWord m hm)).1
  obtain ⟨hsum, w, hw, hmem⟩ := generateNextWord_of_stored dg hst prevWord m hm rnd
  refine ⟨hsum, hlt, Nat.mod_lt rnd hsum, w, hw, hmem, ?_⟩
  obtain ⟨n, hn, hnm⟩ := lookup?_of_mem_keys m w hmem
  have hn1 : 1 ≤ n := (hst (prevWord, m) (mem_of_lookup? dg prevWord m hm)).2 (w, n) hnm
  simpa [count, entry?, hm, hn] using hn1

/-- Instance of C19 at the table of a corpus of two documents and the token `a`. -/
theorem sampling_safe_witness :
    1 ≤ ([("b", 2), ("a", 1)].map Prod.snd).sum ∧
    ([("b", 2), ("a", 1)].map Prod.snd).sum < 2 ^ 31 ∧
    7 % ([("b", 2), ("a", 1)].map Prod.snd).sum < ([("b", 2), ("a", 1)].map Prod.snd).sum ∧
    ∃ w, generateNextWord [("a", [("b", 2), ("a", 1)])] "a" 7 = some w ∧
      w ∈ [("b", 2), ("a", 1)].map Prod.fst ∧ 1 ≤ count [("a", [("b", 2), ("a", 1)])] "a" w :=
  sampling_safe [["a", "b"], ["a", "a", "b"]] (by decide) [("a", [("b", 2), ("a", 1)])]
    (by decide) "a" [("b", 2), ("a", 1)] (by decide) 7

/-! ## The table: counts of adjacent pairs -/

theorem pairPositions_cons (x : String) (rest : List String) (a b : String) :
    pairPositions (x :: rest) a b =
      (if x = a ∧ rest[0]? = some b then 1 else 0) + pairPositions rest a b := by
  unfold pairPositions
  rw [← List.countP_eq_length_filter, ← List.countP_eq_length_filter, List.length_cons,
    List.range_succ_eq_map, List.countP_cons, List.countP_map]
  have hc : List.countP ((fun i => decide ((x :: rest)[i]? = some a ∧
      (x :: rest)[i + 1]? = some b)) ∘ Nat.succ) (List.range rest.length) =
      List.countP (fun i => decide (rest[i]? = some a ∧ rest[i + 1]? = some b))
        (List.range rest.length) := by
    apply List.countP_congr
    intro i _
    simp
  rw [hc]
  by_cases h0 : x = a ∧ rest[0]? = some b
  · simp [h0]; omega
  · simp [h0]

theorem count_adjacentPairs (words : List String) (a b : String) :
    (adjacentPairs words).count (a, b) = pairPositions words a b := by
  induction words with
  | nil => rfl
  | cons x rest ih =>
    rw [pairPositions_cons, ← ih]
    cases rest with
    | nil => simp [adjacentPairs]
    | cons y rest =>
      rw [adjacentPairs, List.count_cons]
      by_cases h : x = a ∧ y = b
      · simp [h]; omega
      · have h2 : ¬ ((x, y) = (a, b)) := by simpa using h
        simp [h, h2]

/-- C18 (adjacent-pair counting): for every corpus of non-empty documents with fewer than
`2^31` tokens in all, every token `a` other than `.` and every token `b`, construction
completes and the stored count of the pair `(a, b)` is the number of positions `i`, summed
over the documents, with `t(i) = a` and `t(i+1) = b`, a number below `2^31`, the pair being
absent when that number is 0; the last token of a document and the first token of the next
one form no recorded pair. -/
theorem adjacent_pair_counting (docs : List (List String))
    (hint : (docs.map List.length).sum < 2 ^ 31) (hne : ∀ d ∈ docs, d ≠ [])
    (a : String) (_ha : a ≠ ".") (b : String) :
    (∃ dg, buildTable docs = some dg ∧
      count dg a b = (docs.map (fun d => pairPositions d a b)).sum ∧
      count dg a b < 2 ^ 31 ∧
      (entry? dg a b = none ↔ (docs.map (fun d => pairPositions d a b)).sum = 0)) ∧
    (buildTable [["x", "y"], ["z", "w"]]).map (fun dg => entry? dg "y" "z") = some none := by
  have hsize := size_of_small_corpus docs hint
  have hbuild : buildTable docs = some (recordAll [] (docs.flatMap adjacentPairs)) := by
    rw [buildTable_eq docs hsize, if_pos hne]
  refine ⟨⟨recordAll [] (docs.flatMap adjacentPairs), hbuild, ?_, ?_, ?_⟩, by decide⟩
  · rw [count_recordAll_nil, count_flatMap_adjacentPairs]
    simp only [count_adjacentPairs]
  · obtain ⟨_, hbound⟩ := buildTable_bounded docs hint _ hbuild
    unfold count entry?
    cases hm : lookup? (recordAll [] (docs.flatMap adjacentPairs)) a with
    | none => simp
    | some m =>
      cases hn : lookup? m b with
      | none => simp [hn]
      | some n =>
        have h1 := (hbound (a, m) (mem_of_lookup? _ a m hm)).2 (b, n) (mem_of_lookup? m b n hn)
        simpa [hn] using h1
  · rw [entry?_recordAll, count_flatMap_adjacentPairs]
    simp only [count_adjacentPairs]
    by_cases hz : (docs.map (fun d => pairPositions d a b)).sum = 0
    · simp [hz, entry?, lookup?]
    · simp [hz]

/-- Instance of C18 at a corpus of two documents in which `a b` occurs three times. -/
theorem adjacent_pair_counting_witness :
    (∃ dg, buildTable [["a", "b", "a", "b"], ["b", "a", "b"]] = some dg ∧
      count dg "a" "b" =
        ([["a", "b", "a", "b"], ["b", "a", "b"]].map (fun d => pairPositions d "a" "b")).sum ∧
      count dg "a" "b" < 2 ^ 31 ∧
      (entry? dg "a" "b" = none ↔
        ([["a", "b", "a", "b"], ["b", "a", "b"]].map
          (fun d => pairPositions d "a" "b")).sum = 0)) ∧
    (buildTable [["x", "y"], ["z", "w"]]).map (fun dg => entry? dg "y" "z") = some none :=
  adjacent_pair_counting [["a", "b", "a", "b"], ["b", "a", "b"]] (by decide) (by decide)
    "a" (by decide) "b"

/-! ## generateDocument: the spacing test -/

theorem appendWord_eq (document next : String) :
    appendWord document next = document ++ (separator next ++ next) := by
  unfold appendWord separator
  by_cases h : found PUNCTUATION next = false
  · simp [h, String.append_assoc]
  · simp [h]

/-! ## generateDocument: spacing claims -/

/-- C13 (a leading space is produced): for the model built from the one-line document
`Hello . World`, whose table holds the transition from `.` to `World`, `generateDocument`
with `numWords = 1` returns the string ` World`, which begins with a space. -/
theorem generateDocument_leading_space :
    DocumentGenerator [["Hello . World"]] =
      some [("Hello", [(".", 1)]), (".", [("World", 1)])] ∧
    generateDocument [("Hello", [(".", 1)]), (".", [("World", 1)])] 1 (fun _ => 0) =
      some " World" ∧
    " World".data.head? = some ' ' := by
  decide

/-- C14 (no space before a block of punctuation characters): for the model built from the
one-line document `. a .!` the second generated token is `.!`, which is none of the four
punctuation tokens, and `generateDocument` with `numWords = 2` returns ` a.!`, with no space
before it: the test `PUNCTUATION.find(next)` finds `.!` inside `PUNCTUATION`.  Before the
token `!.`, which does not occur inside `PUNCTUATION`, the loop body inserts the space. -/
theorem generateDocument_no_space_before_block :
    DocumentGenerator [[". a .!"]] = some [(".", [("a", 1)]), ("a", [(".!", 1)])] ∧
    generateDocument [(".", [("a", 1)]), ("a", [(".!", 1)])] 1 (fun _ => 0) = some " a" ∧
    generateNextWord [(".", [("a", 1)]), ("a", [(".!", 1)])] "a" 0 = some ".!" ∧
    generateDocument [(".", [("a", 1)]), ("a", [(".!", 1)])] 2 (fun _ => 0) = some " a.!" ∧
    ".!" ∉ [".", "!", ",", "?"] ∧
    appendWord " a" ".!" = " a.!" ∧ appendWord " a" "!." = " a !." := by
  decide

/-! ## generateDocument: the loop -/

/-- On a table with non-empty inner maps and counts of at least 1, `generateNextWord` returns
a word for every token and every draw: `.` or a candidate of the entry of the token. -/
theorem generateNextWord_total (dg : Table) (hst : Stored dg) (prevWord : String) (rnd : Nat) :
    ∃ w, generateNextWord dg prevWord rnd = some w ∧
      (w = "." ∨ ∃ m, lookup? dg prevWord = some m ∧ w ∈ m.map Prod.fst) := by
  cases hm : lookup? dg prevWord with
  | none => exact ⟨".", by simp [generateNextWord, hm], Or.inl rfl⟩
  | some m =>
    obtain ⟨_, w, hw, hmem⟩ := generateNextWord_of_stored dg hst prevWord m hm rnd
    exact ⟨w, hw, Or.inr ⟨m, rfl, hmem⟩⟩

/-- The loop runs its `k` iterations: it samples `k` words, each from the one before it, and
appends them in order to the document. -/
theorem generateLoop_spec (dg : Table) (hst : Stored dg) (rnd : Nat → Nat) :
    ∀ (k i : Nat) (prevWord document : String), ∃ ws : List String, ws.length = k ∧
      (∀ j p w, (prevWord :: ws)[j]? = some p → ws[j]? = some w →
        generateNextWord dg p (rnd (i + j)) = some w) ∧
      generateLoop dg rnd k i prevWord document = some (ws.foldl appendWord document) := by
  intro k
  induction k with
  | zero =>
    intro i prevWord document
    exact ⟨[], rfl, by simp, rfl⟩
  | succ k ih =>
    intro i prevWord document
    obtain ⟨next, hnext, _⟩ := generateNextWord_total dg hst prevWord (rnd i)
    obtain ⟨ws, hlen, hchain, hloop⟩ := ih (i + 1) next (appendWord document next)
    refine ⟨next :: ws, by simp [hlen], ?_, ?_⟩
    · intro j p w hp hw
      cases j with
      | zero =>
        simp only [List.getElem?_cons_zero, Option.some.injEq] at hp hw
        rw [← hp, ← hw]; exact hnext
      | succ j =>
        simp only [List.getElem?_cons_succ] at hp hw
        have := hchain j p w hp hw
        rw [show i + (j + 1) = i + 1 + j by omega]
        exact this
    · rw [generateLoop, hnext]
      simpa using hloop

theorem data_foldl_appendWord (ws : List String) : ∀ document : String,
    (ws.foldl appendWord document).data =
      document.data ++ ((ws.map (fun w => separator w ++ w)).map String.data).flatten := by
  induction ws with
  | nil => intro document; simp
  | cons w ws ih =>
    intro document
    rw [List.foldl_cons, ih, appendWord_eq]
    simp [String.data_append, List.append_assoc]

theorem zipWith_separator (ws : List String) :
    List.zipWith (fun s w => s ++ w) (ws.map separator) ws =
      ws.map (fun w => separator w ++ w) := by
  induction ws with
  | nil => rfl
  | cons w ws ih => simp [ih]

theorem joinTokens_eq (ws : List String) :
    joinTokens ws = String.join (List.zipWith (fun s w => s ++ w) (ws.map separator) ws) := by
  apply String.ext
  rw [joinTokens, data_foldl_appendWord, String.data_join, zipWith_separator]
  simp

/-! ## generateDocument: length and chaining -/

/-- C12, as stated, fails: on the table whose only entry, that of `.`, has an empty inner map
the total of the counts is 0, `generateNextWord` divides by zero in `rand() % total`, and
`generateDocument` with `numWords = 1` faults instead of returning a document. -/
theorem generation_chain_counterexample :
    lookup? [(".", ([] : Freq))] "." = some [] ∧
    generateNextWord [(".", [])] "." 0 = none ∧
    generateDocument [(".", [])] 1 (fun _ => 0) = none := by
  decide

/-- C12, amended: on a table with non-empty inner maps, counts of at least 1 and entry totals
below `2^31`, for every `n` below `2^31` and every sequence of draws, `generateDocument` with
`numWords = n` returns a document made of exactly `n` sampled words
`w1 = generateNextWord(".")`, `w(i+1) = generateNextWord(w(i))`, concatenated in order, each
preceded by a separator that is empty or a single space; the number of iterations is below
`2^31` and every total that a sampling step computes lies between 1 and `2^31 - 1`; for
`n = 0` the document is empty. -/
theorem generation_chain (dg : Table) (hst : Stored dg)
    (hint : ∀ e ∈ dg, (e.2.map Prod.snd).sum < 2 ^ 31) (n : Nat) (hn : n < 2 ^ 31)
    (rnd : Nat → Nat) :
    (∃ ws seps : List String, ws.length = n ∧ seps.length = n ∧ ws.length < 2 ^ 31 ∧
      (∀ i p w, ("." :: ws)[i]? = some p → ws[i]? = some w →
        generateNextWord dg p (rnd i) = some w) ∧
      (∀ s ∈ seps, s = "" ∨ s = " ") ∧
      generateDocument dg n rnd =
        some (String.join (List.zipWith (fun s w => s ++ w) seps ws))) ∧
    (∀ p m, lookup? dg p = some m →
      1 ≤ (m.map Prod.snd).sum ∧ (m.map Prod.snd).sum < 2 ^ 31) ∧
    generateDocument dg 0 rnd = some "" := by
  refine ⟨?_, ?_, rfl⟩
  · obtain ⟨ws, hlen, hchain, hloop⟩ := generateLoop_spec dg hst rnd n 0 "." ""
    refine ⟨ws, ws.map separator, hlen, by simp [hlen], by omega, ?_, ?_, ?_⟩
    · intro i p w hp hw
      have := hchain i p w hp hw
      simpa using this
    · intro s hs
      obtain ⟨w, _, hw⟩ := List.mem_map.1 hs
      rw [← hw, separator]
      by_cases h : found PUNCTUATION w = false <;> simp [h]
    · rw [← joinTokens_eq]
      simpa [generateDocument, joinTokens] using hloop
  · intro p m hm
    have hmem := mem_of_lookup? dg p m hm
    exact ⟨sum_pos_of_stored m (hst (p, m) hmem).1 (hst (p, m) hmem).2, hint (p, m) hmem⟩

/-- Instance of the amended C12 at the table of the document `Hello . World` with three
words. -/
theorem generation_chain_witness :
    (∃ ws seps : List String, ws.length = 3 ∧ seps.length = 3 ∧ ws.length < 2 ^ 31 ∧
      (∀ i p w, ("." :: ws)[i]? = some p → ws[i]? = some w →
        generateNextWord [("Hello", [(".", 1)]), (".", [("World", 1)])] p
          ((fun i => 5 * i) i) = some w) ∧
      (∀ s ∈ seps, s = "" ∨ s = " ") ∧
      generateDocument [("Hello", [(".", 1)]), (".", [("World", 1)])] (3 : Nat)
          (fun i => 5 * i) =
        some (String.join (List.zipWith (fun s w => s ++ w) seps ws))) ∧
    (∀ p m, lookup? [("Hello", [(".", 1)]), (".", [("World", 1)])] p = some m →
      1 ≤ (m.map Prod.snd).sum ∧ (m.map Prod.snd).sum < 2 ^ 31) ∧
    generateDocument [("Hello", [(".", 1)]), (".", [("World", 1)])] 0 (fun i => 5 * i) =
      some "" :=
  generation_chain [("Hello", [(".", 1)]), (".", [("World", 1)])]
    (by unfold Stored; decide) (by decide) 3 (by decide) (fun i => 5 * i)

/-! ## generateDocument: characters of the document -/

theorem mem_getWords (fileLines : List String) (w : String) (hw : w ∈ getWords fileLines) :
    ∃ line ∈ fileLines, w ∈ tokenize line := by
  induction fileLines with
  | nil => simp [getWords] at hw
  | cons line rest ih =>
    rw [getWords_cons] at hw
    rcases List.mem_append.1 hw with h | h
    · exact ⟨line, List.mem_cons_self _ _, h⟩
    · obtain ⟨l, hl, hwl⟩ := ih h
      exact ⟨l, List.mem_cons_of_mem _ hl, hwl⟩

theorem snd_mem_of_mem_adjacentPairs (words : List String) (q : String × String)
    (hq : q ∈ adjacentPairs words) : q.2 ∈ words := by
  obtain ⟨a, b⟩ := q
  obtain ⟨i, _, hb⟩ := (mem_adjacentPairs_iff words a b).1 hq
  obtain ⟨hlt, hget⟩ := List.getElem?_eq_some_iff.1 hb
  rw [← hget]
  exact List.getElem_mem hlt

/-- The candidates stored by the counting loop are successor tokens of the recorded pairs. -/
theorem keys_recordTransition (P : String → Prop) (dg : Table) (a b : String) (hb : P b)
    (h : ∀ e ∈ dg, ∀ w ∈ e.2.map Prod.fst, P w) :
    ∀ e ∈ recordTransition dg a b, ∀ w ∈ e.2.map Prod.fst, P w := by
  have hinc : ∀ m : Freq, (∀ w ∈ m.map Prod.fst, P w) →
      ∀ w ∈ (increment m b).map Prod.fst, P w := by
    intro m hm w hw
    rw [keys_increment] at hw
    by_cases hbm : b ∈ m.map Prod.fst
    · rw [if_pos hbm] at hw; exact hm w hw
    · rw [if_neg hbm] at hw
      rcases List.mem_append.1 hw with h1 | h1
      · exact hm w h1
      · rw [List.mem_singleton.1 h1]; exact hb
  induction dg with
  | nil =>
    rw [recordTransition_nil]
    intro e he w hw
    rw [List.mem_singleton.1 he] at hw
    simp only [List.map_cons, List.map_nil, List.mem_singleton] at hw
    rw [hw]; exact hb
  | cons e0 dg ih =>
    obtain ⟨k, m⟩ := e0
    have hdg : ∀ e ∈ dg, ∀ w ∈ e.2.map Prod.fst, P w :=
      fun e he => h e (List.mem_cons_of_mem _ he)
    have hkm := h (k, m) (List.mem_cons_self _ _)
    rw [recordTransition_cons]
    by_cases hk : k = a
    · simp only [hk, if_true]
      intro e he
      rcases List.mem_cons.1 he with he | he
      · rw [he]; exact hinc m hkm
      · exact hdg e he
    · simp only [hk, if_false]
      intro e he
      rcases List.mem_cons.1 he with he | he
      · rw [he]; exact hkm
      · exact ih hdg e he

theorem keys_recordAll (P : String → Prop) (pairs : List (String × String))
    (hp : ∀ q ∈ pairs, P q.2) : ∀ dg : Table, (∀ e ∈ dg, ∀ w ∈ e.2.map Prod.fst, P w) →
      ∀ e ∈ recordAll dg pairs, ∀ w ∈ e.2.map Prod.fst, P w := by
  induction pairs with
  | nil => intro dg h; exact h
  | cons q pairs ih =>
    intro dg h
    rw [recordAll_cons]
    exact ih (fun x hx => hp x (List.mem_cons_of_mem _ hx)) _
      (keys_recordTransition P dg q.1 q.2 (hp q (List.mem_cons_self _ _)) h)

theorem OnlySpaces.appendWord {document next : String} (hd : OnlySpaces document)
    (hn : OnlySpaces next) : OnlySpaces (appendWord document next) := by
  rw [appendWord_eq]
  intro c hc
  simp only [String.data_append, List.mem_append] at hc
  rcases hc with hc | hc | hc
  · exact hd c hc
  · intro _
    unfold separator at hc
    by_cases h : found PUNCTUATION next = false
    · rw [if_pos h] at hc
      simpa using hc
    · rw [if_neg h] at hc
      simp at hc
  · exact hn c hc

theorem OnlySpaces.foldl (ws : List String) (hws : ∀ w ∈ ws, OnlySpaces w) :
    ∀ document : String, OnlySpaces document → OnlySpaces (ws.foldl Pa2.appendWord document) := by
  induction ws with
  | nil => intro document hd; exact hd
  | cons w ws ih =>
    intro document hd
    rw [List.foldl_cons]
    exact ih (fun x hx => hws x (List.mem_cons_of_mem _ hx)) _
      (hd.appendWord (hws w (List.mem_cons_self _ _)))

theorem onlySpaces_of_no_whitespace (w : String) (h : ∀ c ∈ w.data, c ∉ whitespace.data) :
    OnlySpaces w :=
  fun c hc hw => absurd hw (h c hc)

/-- C15 (no whitespace other than spaces): for every corpus of raw texts with fewer than
`2^31` tokens in all on which construction completes, every `numWords` below `2^31` and every
sequence of draws, every entry total of the built table lies between 1 and `2^31 - 1`,
`generateDocument` on the built table returns a document, and every whitespace character of
the document is a space. -/
theorem generated_document_only_spaces (files : List (List String))
    (hint : ((files.map getWords).map List.length).sum < 2 ^ 31)
    (dg : Table) (h : DocumentGenerator files = some dg) (numWords : Int)
    (hnum : numWords < 2 ^ 31) (rnd : Nat → Nat) :
    (∀ p m, lookup? dg p = some m →
      1 ≤ (m.map Prod.snd).sum ∧ (m.map Prod.snd).sum < 2 ^ 31) ∧
    numWords.toNat < 2 ^ 31 ∧
    ∃ document, generateDocument dg numWords rnd = some document ∧
      ∀ c ∈ document.data, c ∈ whitespace.data → c = ' ' := by
  have hsize2 := size_of_small_corpus (files.map getWords) hint
  obtain ⟨hst, hbound⟩ := buildTable_bounded (files.map getWords) hint dg h
  obtain ⟨_, hdg⟩ := buildTable_of_some (files.map getWords) hsize2 dg h
  refine ⟨fun p m hm => ⟨sum_pos_of_stored m (hst (p, m) (mem_of_lookup? dg p m hm)).1
      (hst (p, m) (mem_of_lookup? dg p m hm)).2, (hbound (p, m) (mem_of_lookup? dg p m hm)).1⟩,
    by omega, ?_⟩
  have hkeys : ∀ e ∈ dg, ∀ w ∈ e.2.map Prod.fst, ∀ c ∈ w.data, c ∉ whitespace.data := by
    rw [hdg]
    refine keys_recordAll (fun w => ∀ c ∈ w.data, c ∉ whitespace.data) _ ?_ [] (by simp)
    intro q hq
    obtain ⟨d, hd, hqd⟩ := List.mem_flatMap.1 hq
    obtain ⟨f, _, hfd⟩ := List.mem_map.1 hd
    have hmem : q.2 ∈ getWords f := by
      rw [hfd]; exact snd_mem_of_mem_adjacentPairs d q hqd
    obtain ⟨line, _, hline⟩ := mem_getWords f q.2 hmem
    exact (tokenize_inv (fun c => c ∉ whitespace.data)
      (fun c _ hc => hc.elim id (punctuation_not_whitespace c)) line q.2 hline).2
  obtain ⟨ws, hlen, hchain, hloop⟩ := generateLoop_spec dg hst rnd numWords.toNat 0 "." ""
  refine ⟨ws.foldl appendWord "", hloop, ?_⟩
  have hws : ∀ w ∈ ws, OnlySpaces w := by
    intro w hw
    obtain ⟨j, hj⟩ := List.getElem?_of_mem hw
    have hjlt : j < ws.length := (List.getElem?_eq_some_iff.1 hj).1
    obtain ⟨p, hp⟩ : ∃ p, ("." :: ws)[j]? = some p := by
      cases hpo : ("." :: ws)[j]? with
      | some p => exact ⟨p, rfl⟩
      | none =>
        have hle := List.getElem?_eq_none_iff.1 hpo
        simp only [List.length_cons] at hle
        omega
    have hgen := hchain j p w hp hj
    obtain ⟨w2, hw2, hor⟩ := generateNextWord_total dg hst p (rnd (0 + j))
    rw [hgen] at hw2
    have hww : w = w2 := Option.some.inj hw2
    rcases hor with hdot | ⟨m, hm, hmem⟩
    · rw [hww, hdot]
      exact onlySpaces_of_no_whitespace "." (by decide)
    · rw [hww]
      exact onlySpaces_of_no_whitespace w2
        (hkeys _ (mem_of_lookup? dg _ m hm) w2 hmem)
  exact OnlySpaces.foldl ws hws "" (fun c hc => by simp at hc)

/-- Instance of C15 at a corpus of two files, one with a tab inside a line. -/
theorem generated_document_only_spaces_witness :
    (∀ p m, lookup? [("Hello", [(".", 1)]), (".", [("World", 1)]), ("World", [("a", 1)]),
        ("a", [("b", 1)]), ("b", [(".", 1)])] p = some m →
      1 ≤ (m.map Prod.snd).sum ∧ (m.map Prod.snd).sum < 2 ^ 31) ∧
    (6 : Int).toNat < 2 ^ 31 ∧
    ∃ document,
      generateDocument
        [("Hello", [(".", 1)]), (".", [("World", 1)]), ("World", [("a", 1)]),
          ("a", [("b", 1)]), ("b", [(".", 1)])] 6 (fun i => i) = some document ∧
      ∀ c ∈ document.data, c ∈ whitespace.data → c = ' ' :=
  generated_document_only_spaces [["Hello . World", "a\tb ."], ["x"]] (by decide)
    [("Hello", [(".", 1)]), (".", [("World", 1)]), ("World", [("a", 1)]),
      ("a", [("b", 1)]), ("b", [(".", 1)])] (by decide) 6 (by decide) (fun i => i)

end Pa2
